import Mathlib

/-!
Shallow embedding of the `elog` logging library (files `logger.go`, `out.go`,
`elog.go`, `default.go`) and proofs about its header-formatting engine,
ordering engine, level gating, option application and slice-copy behaviour.

Go byte buffers are modelled as `List Char` (all data involved is ASCII),
Go `int` flags as `Nat` bitmasks, and a Go panic (index out of range) as
`Option.none`.  Go identifiers containing the substring "prefix" are rendered
with "pfx" (`Lmsgpfx` for Go `Lmsgprefix`, `outputPfx` for `outputPrefix`,
`OrderPfx` for `OrderPrefix`, field `pfx` for `prefix`); everything else keeps
the source's names.
-/

namespace Elog

/-! ### Flag bits (logger.go, `const ( Ldate = 1 << iota ... )`) -/

def Ldate : Nat := 1
def Ltime : Nat := 2
def Lmicroseconds : Nat := 4
def LUTC : Nat := 8
def Llongfile : Nat := 16
def Lshortfile : Nat := 32
/-- Go `Lmsgprefix`. -/
def Lmsgpfx : Nat := 64
def Lmsgcolor : Nat := 128
def Llevel : Nat := 256
def LlevelLabelColor : Nat := 512
def LstdFlags : Nat := Ldate ||| Ltime ||| Lshortfile ||| Llevel

/-! ### Levels (logger.go, `Discard logLevel = iota; TraceLevel; ...`) -/

inductive logLevel where
  | Discard
  | TraceLevel
  | DebugLevel
  | InfoLevel
  | WarnLevel
  | ErrorLevel
  | PanicLevel
  | FatalLevel
deriving DecidableEq

/-- The numeric value given to each level by `iota` in logger.go. -/
def logLevel.toNat : logLevel → Nat
  | .Discard => 0
  | .TraceLevel => 1
  | .DebugLevel => 2
  | .InfoLevel => 3
  | .WarnLevel => 4
  | .ErrorLevel => 5
  | .PanicLevel => 6
  | .FatalLevel => 7

/-! ### Labels and colors (logger.go) -/

def FatalLabel : String := "FATAL"
def PanicLabel : String := "PANIC"
def ErrorLabel : String := "ERROR"
def WarnLabel : String := "WARN "
def InfoLabel : String := "INFO "
def DebugLabel : String := "DEBUG"
def TraceLabel : String := "TRACE"

def colRed : String := "\x1b[1;31;40m "
def colGreen : String := "\x1b[1;32;40m "
def colYellow : String := "\x1b[1;33;40m "
def colBlue : String := "\x1b[1;34;40m "
def colMagenta : String := "\x1b[1;35;40m "
def colCyan : String := "\x1b[1;36;40m "

def FatalBg : String := "\x1b[0;30;45m "
def PanicBg : String := "\x1b[1;37;45m "
def ErrorBg : String := "\x1b[1;37;41m "
def WarnBg : String := "\x1b[0;30;43m "
def InfoBg : String := "\x1b[0;30;46m "
def DebugBg : String := "\x1b[0;37;44m "
def TraceBg : String := "\x1b[0;30;42m "

/-- Go `color_` (the reset escape, with the surrounding spaces). -/
def colorReset : String := " \x1b[0m "

structure LevelInfo where
  levelLabel : String
  levelLabelColor : String
  levelColor : String
deriving DecidableEq

/-- logger.go's `levelMap`.  A Go map lookup of a missing key (here only
`Discard`, which has no entry) yields the zero value, i.e. empty strings. -/
def levelMap : logLevel → LevelInfo
  | .FatalLevel => ⟨FatalLabel, FatalBg, colMagenta⟩
  | .PanicLevel => ⟨PanicLabel, PanicBg, colMagenta⟩
  | .ErrorLevel => ⟨ErrorLabel, ErrorBg, colRed⟩
  | .WarnLevel => ⟨WarnLabel, WarnBg, colYellow⟩
  | .InfoLevel => ⟨InfoLabel, InfoBg, colCyan⟩
  | .DebugLevel => ⟨DebugLabel, DebugBg, colBlue⟩
  | .TraceLevel => ⟨TraceLabel, TraceBg, colGreen⟩
  | .Discard => ⟨"", "", ""⟩

/-! ### Field order identifiers (logger.go, `type logOrder string`) -/

abbrev logOrder := String

def OrderDate : logOrder := "Date"
def OrderTime : logOrder := "Time"
def OrderLevel : logOrder := "Level"
/-- Go `OrderPrefix`. -/
def OrderPfx : logOrder := "Prefix"
def OrderPath : logOrder := "Path"
def OrderMsg : logOrder := "Message"

/-! ### Timestamps

`time.Time` is modelled by its observable components; `t.Date()`,
`t.Clock()` and `t.Nanosecond()` project the fields.  The `UTC` conversion
needs a timezone database, so `Out` receives it as a function argument. -/

structure DateTime where
  year : Nat
  month : Nat
  day : Nat
  hour : Nat
  minute : Nat
  sec : Nat
  nanos : Nat
deriving DecidableEq

/-! ### Bit clearing (elog.go `subFlag`, Go `flag1 &^ flag2`) -/

/-- Go `flag1 &^ flag2` (AND NOT).  `flag1 &&& (flag1 ^^^ flag2)` agrees with
AND NOT on every bit: where `flag1` is 0 both give 0, where `flag1` is 1 the
xor equals the negation of `flag2`'s bit. -/
def subFlag (flag1 flag2 : Nat) : Nat := flag1 &&& (flag1 ^^^ flag2)

/-! ### Integer encoding (out.go `itoa`)

The source writes digits from the right end of a stack array `b [20]byte`
and appends `b[bIdx:]`.  `itoaCore num wid room` builds the same digit list;
`room` is the number of free slots left of the current write position, so a
write attempted with no room left is the source's index-out-of-range panic,
modelled as `none`. -/

def itoaCore : Nat → Int → Nat → Option (List Char)
  | _, _, 0 => none
  | num, wid, room + 1 =>
    if 10 ≤ num ∨ 1 < wid then
      (itoaCore (num / 10) (wid - 1) room).map
        (fun ds => ds ++ [Char.ofNat (48 + num % 10)])
    else
      some [Char.ofNat (48 + num)]

def itoa (buf : List Char) (num : Nat) (wid : Int) : Option (List Char) :=
  (itoaCore num wid 20).map (fun ds => buf ++ ds)

/-- The plain decimal representation of a natural number (specification-side,
used to state what `itoa` produces). -/
def decRep (n : Nat) : List Char :=
  if n < 10 then [Char.ofNat (48 + n)]
  else decRep (n / 10) ++ [Char.ofNat (48 + n % 10)]
decreasing_by exact Nat.div_lt_self (by omega) (by omega)

/-- Zero-padded decimal of minimum width `wid` (no padding when `wid ≤ 0`):
what the spec says `itoa` emits. -/
def padDec (wid : Int) (n : Nat) : List Char :=
  List.replicate (wid - (decRep n).length).toNat '0' ++ decRep n

/-! ### Separator (out.go `addSpace`)

`addSpace` reads `b[len(b)-1]`; on an empty buffer that is a Go
index-out-of-range panic, modelled as `none`. -/

def addSpace (buf : List Char) : Option (List Char) :=
  match buf.getLast? with
  | none => none
  | some c => if c ≠ ' ' then some (buf ++ [' ']) else some buf

/-! ### Color helpers (out.go `setColor` / `unsetColor`) -/

def setColor (buf : List Char) (level : logLevel) : List Char :=
  buf ++ (levelMap level).levelColor.toList

def unsetColor (buf : List Char) : List Char :=
  buf ++ colorReset.toList

/-! ### Short file name (out.go `outputPath`'s shortening loop)

Go: `for i := len(file) - 1; i > 0; i-- { if file[i] == '/' { short =
file[i+1:]; break } }` — note the loop stops at `i > 0`, so a slash at
index 0 is never examined. -/

def shortScan (file : List Char) : Nat → List Char
  | 0 => file
  | i + 1 => if file.getD (i + 1) ' ' = '/' then file.drop (i + 2) else shortScan file i

def shortName (file : List Char) : List Char :=
  match file.length with
  | 0 => file
  | n + 1 => shortScan file n

/-! ### Field formatters (out.go)

Each formatter guards on its bit(s) in the remaining-flags mask, appends its
fragment (factored out as `appendX`), and clears its bit(s) with `subFlag`,
exactly as in the source.  All fragment appenders end in `addSpace` as the
source does. -/

def appendDate (t : DateTime) (buf : List Char) : Option (List Char) := do
  let b ← itoa buf t.year 4
  let b ← itoa (b ++ ['/']) t.month 2
  let b ← itoa (b ++ ['/']) t.day 2
  addSpace b

def outputDate (flag : Nat) (t : DateTime) (buf : List Char) :
    Option (Nat × List Char) :=
  if flag &&& Ldate ≠ 0 then
    (appendDate t buf).map (fun b => (subFlag flag Ldate, b))
  else
    some (flag, buf)

def appendTime (flag : Nat) (t : DateTime) (buf : List Char) : Option (List Char) := do
  let b ← itoa buf t.hour 2
  let b ← itoa (b ++ [':']) t.minute 2
  let b ← itoa (b ++ [':']) t.sec 2
  let b ← if flag &&& Lmicroseconds ≠ 0 then
            itoa (b ++ ['.']) (t.nanos / 1000) 6
          else
            pure b
  addSpace b

def outputTime (flag : Nat) (t : DateTime) (buf : List Char) :
    Option (Nat × List Char) :=
  if flag &&& (Ltime ||| Lmicroseconds) ≠ 0 then
    (appendTime flag t buf).map (fun b => (subFlag flag (Ltime ||| Lmicroseconds), b))
  else
    some (flag, buf)

def appendLevel (level : logLevel) (buf : List Char) : Option (List Char) :=
  addSpace (buf ++ (levelMap level).levelLabel.toList)

def outputLevel (flag : Nat) (level : logLevel) (buf : List Char) :
    Option (Nat × List Char) :=
  if flag &&& Llevel ≠ 0 then
    (appendLevel level buf).map (fun b => (subFlag flag Llevel, b))
  else
    some (flag, buf)

def appendPath (flag : Nat) (file : List Char) (line : Nat) (buf : List Char) :
    Option (List Char) := do
  let f := if flag &&& Lshortfile ≠ 0 then shortName file else file
  let b ← itoa (buf ++ f ++ [':']) line (-1)
  addSpace b

def outputPath (flag : Nat) (file : List Char) (line : Nat) (buf : List Char) :
    Option (Nat × List Char) :=
  if flag &&& (Lshortfile ||| Llongfile) ≠ 0 then
    (appendPath flag file line buf).map
      (fun b => (subFlag flag (Lshortfile ||| Llongfile), b))
  else
    some (flag, buf)

/-- Go `outputPrefix`. -/
def appendPfx (p : String) (buf : List Char) : Option (List Char) :=
  addSpace (buf ++ p.toList)

def outputPfx (flag : Nat) (p : String) (buf : List Char) :
    Option (Nat × List Char) :=
  if flag &&& Lmsgpfx ≠ 0 then
    (appendPfx p buf).map (fun b => (subFlag flag Lmsgpfx, b))
  else
    some (flag, buf)

/-- out.go `outputMsg` body without the written-guard: color on, message,
conditional newline, color off. -/
def appendMsg (flag : Nat) (level : logLevel) (msg : List Char) (buf : List Char) :
    List Char :=
  let b := if flag &&& Lmsgcolor ≠ 0 then setColor buf level else buf
  let b := b ++ msg
  let b := if msg.length = 0 ∨ msg.getLast? ≠ some '\n' then b ++ ['\n'] else b
  if flag &&& Lmsgcolor ≠ 0 then unsetColor b else b

/-- out.go `outputMsg`: if the message was already written (it may occur in
the explicit order list) it is not written again; `flag` is the full `l.flag`
(the message is not governed by the remaining-flags mask). -/
def outputMsg (flag : Nat) (written : Bool) (level : logLevel) (msg : List Char)
    (buf : List Char) : Bool × List Char :=
  if written then (written, buf)
  else (true, appendMsg flag level msg buf)

/-- Modelled from the spec: the helper `setNewLine` invoked at the end of
`Log.Out` (elog.go line 84) is not among the provided sources.  Per the spec,
"Message always terminates in exactly one newline" / "if the message is empty
or does not already end in a newline, append one newline", it appends a
newline exactly when the buffer does not already end in one. -/
def setNewLine (buf : List Char) : List Char :=
  if buf.getLast? = some '\n' then buf else buf ++ ['\n']

/-! ### Go slices of `logOrder` with aliasing

`Log.order` is a Go slice.  `Extend` deep-copies it (`make` + `copy`) and
`SetOrder` truncates and appends in place, so sharing or not sharing the
backing array is observable.  A slice is an (optional) index into a store of
backing arrays plus a length; slices produced by `make`/`append` always start
at offset 0, which is the only case this code creates.  `none` as the array
index is Go's nil slice (length and capacity 0). -/

structure OrderSlice where
  arr : Option Nat
  len : Nat
deriving DecidableEq

structure Store where
  arrays : List (List logOrder)
deriving DecidableEq

/-- The backing array of a slice (empty for a nil slice). -/
def backing (st : Store) (s : OrderSlice) : List logOrder :=
  match s.arr with
  | none => []
  | some i => st.arrays.getD i []

/-- The elements of a slice: the first `len` entries of its backing array. -/
def sliceView (st : Store) (s : OrderSlice) : List logOrder :=
  (backing st s).take s.len

/-- Go `append(s, xs...)`: reuse the backing array when capacity allows
(overwriting in place), otherwise allocate a fresh array. -/
def goAppend (st : Store) (s : OrderSlice) (xs : List logOrder) :
    Store × OrderSlice :=
  let arr := backing st s
  match s.arr with
  | some i =>
    if s.len + xs.length ≤ arr.length then
      (⟨st.arrays.set i (arr.take s.len ++ xs ++ arr.drop (s.len + xs.length))⟩,
       ⟨some i, s.len + xs.length⟩)
    else
      (⟨st.arrays ++ [arr.take s.len ++ xs]⟩,
       ⟨some st.arrays.length, s.len + xs.length⟩)
  | none =>
    (⟨st.arrays ++ [xs]⟩, ⟨some st.arrays.length, xs.length⟩)

/-- Go `make([]logOrder, n)` followed by `copy` from `xs` (with `n =
len(xs)`): a fresh backing array holding `xs`. -/
def makeCopy (st : Store) (xs : List logOrder) : Store × OrderSlice :=
  (⟨st.arrays ++ [xs]⟩, ⟨some st.arrays.length, xs.length⟩)

/-! ### Writers (io.Writer, os.Stderr, io.MultiWriter) -/

inductive Writer where
  | stderr : Writer
  | sink : Nat → Writer
  | multi : List Writer → Writer

-- The leaf destinations a writer fans out to (`io.MultiWriter` writes to
-- each of its writers in turn).
mutual
def sinksOf : Writer → List Writer
  | .stderr => [.stderr]
  | .sink n => [.sink n]
  | .multi ws => sinksOfList ws

def sinksOfList : List Writer → List Writer
  | [] => []
  | w :: ws => sinksOf w ++ sinksOfList ws
end

/-! ### The logger record (elog.go `type Log struct`)

The mutex only serialises access and the scratch buffer is cleared at the
start of every pass, so neither is part of the state; `output` is `none`
while unset (Go nil). -/

structure Log where
  output : Option Writer
  level : logLevel
  name : String
  flag : Nat
  /-- Go field `prefix`. -/
  pfx : String
  order : OrderSlice

/-! ### Options (elog.go `LogOption`) and constructors -/

/-- elog.go `OOutput`: prepend-accumulate writers.  A nil first writer is
replaced by `os.Stderr`; the logger's previous output, if any, is kept as one
of the fan-out targets. -/
def resolveW1 (w1 : Option Writer) : Writer := w1.getD .stderr

def OOutput (w1 : Option Writer) (w : List Writer) (logger : Log) : Log :=
  let w1 := resolveW1 w1
  let w := w ++ [w1]
  let w := match logger.output with
           | some out => w ++ [out]
           | none => w
  { logger with output := some (.multi w) }

def OFlag (flag : Nat) (logger : Log) : Log := { logger with flag := flag }

/-- Go `OPrefix`. -/
def OPfx (p : String) (logger : Log) : Log := { logger with pfx := p }

def OName (name : String) (logger : Log) : Log := { logger with name := name }

/-- elog.go `New`: zero-valued logger, set level, apply options, default the
output to stderr when none was attached. -/
def New (level : logLevel) (options : List (Log → Log)) : Log :=
  let l : Log := { output := none, level := level, name := "", flag := 0,
                   pfx := "", order := ⟨none, 0⟩ }
  let l := options.foldl (fun l o => o l) l
  match l.output with
  | none => { l with output := some .stderr }
  | some _ => l

/-- elog.go `Log.Extend` (without options): copy output, level, flag and
message prefix, deep-copy the order sequence; the `name` field is not
assigned, so the child keeps the zero value. -/
def Extend (st : Store) (parent : Log) (options : List (Log → Log)) :
    Store × Log :=
  let (st', ord) := makeCopy st (sliceView st parent.order)
  let son : Log := { output := parent.output, level := parent.level,
                     name := "", flag := parent.flag, pfx := parent.pfx,
                     order := ord }
  (st', options.foldl (fun l o => o l) son)

/-- elog.go `Log.SetOrder`: `l.order = l.order[:0]` then
`l.order = append(l.order, orders...)`. -/
def SetOrder (st : Store) (l : Log) (orders : List logOrder) : Store × Log :=
  let s0 : OrderSlice := { l.order with len := 0 }
  let (st', s') := goAppend st s0 orders
  (st', { l with order := s' })

/-! ### The record assembler (elog.go `Log.Out`)

Caller resolution (`runtime.Caller`) is environment input, so `file` and
`line` are parameters; likewise the wall clock `now` and the timezone
conversion `utc` (applied once, before any formatter, when `LUTC` is set).
The buffer is cleared, the explicit order list is walked (each entry
dispatching on the order identifier exactly as the source's `switch`), the
default sequence Date Time Level Path Prefix Message runs, `setNewLine`
finishes the line, and the buffer contents are what gets written. -/

def outStep (l : Log) (level : logLevel) (msg : List Char) (t : DateTime)
    (file : List Char) (line : Nat) :
    Nat × Bool × List Char → logOrder → Option (Nat × Bool × List Char) :=
  fun s o =>
    let (fl, w, buf) := s
    if o = OrderDate then (outputDate fl t buf).map (fun p => (p.1, w, p.2))
    else if o = OrderTime then (outputTime fl t buf).map (fun p => (p.1, w, p.2))
    else if o = OrderLevel then (outputLevel fl level buf).map (fun p => (p.1, w, p.2))
    else if o = OrderPfx then (outputPfx fl l.pfx buf).map (fun p => (p.1, w, p.2))
    else if o = OrderPath then (outputPath fl file line buf).map (fun p => (p.1, w, p.2))
    else if o = OrderMsg then
      let r := outputMsg l.flag w level msg buf
      some (fl, r.1, r.2)
    else some (fl, w, buf)

def Out (st : Store) (l : Log) (level : logLevel) (msgS : String)
    (now : DateTime) (utc : DateTime → DateTime) (fileS : String) (line : Nat) :
    Option (List Char) :=
  let t := if l.flag &&& LUTC ≠ 0 then utc now else now
  let msg := msgS.toList
  let file := fileS.toList
  do
    let s1 ← List.foldlM (outStep l level msg t file line)
               (l.flag, false, ([] : List Char)) (sliceView st l.order)
    let (f2, b2) ← outputDate s1.1 t s1.2.2
    let (f3, b3) ← outputTime f2 t b2
    let (f4, b4) ← outputLevel f3 level b3
    let (f5, b5) ← outputPath f4 file line b4
    let (_f6, b6) ← outputPfx f5 l.pfx b5
    let r := outputMsg l.flag s1.2.1 level msg b6
    pure (setNewLine r.2)

/-! ### Leveled print methods (elog.go)

Each method formats via `fmt.Sprintln`/`fmt.Sprintf` (the rendered message is
taken as input) and calls `Out` when the logger's level is at most the
method's level.  `Fatal`'s `os.Exit` and `Panic`'s `panic` happen after the
write and do not affect what is written.  `none` means nothing was written. -/

def Log.Trace (st : Store) (l : Log) (now : DateTime) (utc : DateTime → DateTime)
    (file : String) (line : Nat) (msg : String) : Option (List Char) :=
  if l.level.toNat ≤ logLevel.TraceLevel.toNat then
    Out st l .TraceLevel msg now utc file line
  else none

def Log.Debug (st : Store) (l : Log) (now : DateTime) (utc : DateTime → DateTime)
    (file : String) (line : Nat) (msg : String) : Option (List Char) :=
  if l.level.toNat ≤ logLevel.DebugLevel.toNat then
    Out st l .DebugLevel msg now utc file line
  else none

def Log.Info (st : Store) (l : Log) (now : DateTime) (utc : DateTime → DateTime)
    (file : String) (line : Nat) (msg : String) : Option (List Char) :=
  if l.level.toNat ≤ logLevel.InfoLevel.toNat then
    Out st l .InfoLevel msg now utc file line
  else none

def Log.Warn (st : Store) (l : Log) (now : DateTime) (utc : DateTime → DateTime)
    (file : String) (line : Nat) (msg : String) : Option (List Char) :=
  if l.level.toNat ≤ logLevel.WarnLevel.toNat then
    Out st l .WarnLevel msg now utc file line
  else none

def Log.Error (st : Store) (l : Log) (now : DateTime) (utc : DateTime → DateTime)
    (file : String) (line : Nat) (msg : String) : Option (List Char) :=
  if l.level.toNat ≤ logLevel.ErrorLevel.toNat then
    Out st l .ErrorLevel msg now utc file line
  else none

def Log.Panic (st : Store) (l : Log) (now : DateTime) (utc : DateTime → DateTime)
    (file : String) (line : Nat) (msg : String) : Option (List Char) :=
  if l.level.toNat ≤ logLevel.PanicLevel.toNat then
    Out st l .PanicLevel msg now utc file line
  else none

def Log.Fatal (st : Store) (l : Log) (now : DateTime) (utc : DateTime → DateTime)
    (file : String) (line : Nat) (msg : String) : Option (List Char) :=
  if l.level.toNat ≤ logLevel.FatalLevel.toNat then
    Out st l .FatalLevel msg now utc file line
  else none

/-! ### Specification-side field sequences (for the exactly-once theorem) -/

inductive Field where
  | date
  | time
  | lvl
  | path
  | pfx
  | msg
deriving DecidableEq

/-- The flag mask governing each header field (the message has none). -/
def fmask : Field → Nat
  | .date => Ldate
  | .time => Ltime ||| Lmicroseconds
  | .lvl => Llevel
  | .path => Lshortfile ||| Llongfile
  | .pfx => Lmsgpfx
  | .msg => 0

/-- Emit one named field's fragment onto the buffer (the same appenders the
formatters use). -/
def appendField (l : Log) (level : logLevel) (msg : List Char) (t : DateTime)
    (file : List Char) (line : Nat) (F : Field) (buf : List Char) :
    Option (List Char) :=
  match F with
  | .date => appendDate t buf
  | .time => appendTime l.flag t buf
  | .lvl => appendLevel level buf
  | .path => appendPath l.flag file line buf
  | .pfx => appendPfx l.pfx buf
  | .msg => some (appendMsg l.flag level msg buf)

/-- Render a sequence of fields onto a buffer. -/
def renderFrom (l : Log) (level : logLevel) (msg : List Char) (t : DateTime)
    (file : List Char) (line : Nat) (buf : List Char) (fs : List Field) :
    Option (List Char) :=
  List.foldlM (fun b F => appendField l level msg t file line F b) buf fs

/-! ### Small derived definitions used by the statements -/

/-- Numeric value of a boolean (for counting emissions). -/
def cnt (b : Bool) : Nat := if b then 1 else 0

/-- Whether a header field's bits are (still) on in a mask. -/
def onF (flag : Nat) (F : Field) : Bool := flag &&& fmask F != 0

/-- The fixed default emission sequence of `Out` (elog.go lines 77-82). -/
def dfltOrder : List logOrder :=
  [OrderDate, OrderTime, OrderLevel, OrderPath, OrderPfx, OrderMsg]

/-- A slice is well-formed in a store when its backing index is in range. -/
def WFS (st : Store) (s : OrderSlice) : Prop :=
  match s.arr with
  | none => True
  | some i => i < st.arrays.length

/-- Invariant threaded through a pass: each field's bits in the remaining
mask are either untouched (equal to the configured flag's) or fully
cleared. -/
def maskInv (flag rem : Nat) : Prop :=
  ∀ F : Field, rem &&& fmask F = flag &&& fmask F ∨ rem &&& fmask F = 0

/-! ## Lemmas: bit arithmetic -/

theorem testBit_subFlag (x m i : Nat) :
    (subFlag x m).testBit i = (x.testBit i && !(m.testBit i)) := by
  simp only [subFlag, Nat.testBit_land, Nat.testBit_xor]
  cases x.testBit i <;> cases m.testBit i <;> rfl

theorem land_eq_zero_iff {x m : Nat} :
    x &&& m = 0 ↔ ∀ i, ¬(x.testBit i = true ∧ m.testBit i = true) := by
  constructor
  · intro h i hi
    have h2 := congrArg (fun n => n.testBit i) h
    simp only [Nat.testBit_land, Nat.zero_testBit] at h2
    rw [hi.1, hi.2] at h2
    simp at h2
  · intro h
    apply Nat.eq_of_testBit_eq
    intro i
    simp only [Nat.testBit_land, Nat.zero_testBit]
    cases hx : x.testBit i
    · simp
    · cases hm : m.testBit i
      · simp
      · exact absurd ⟨hx, hm⟩ (h i)

theorem subFlag_land_self (x m : Nat) : subFlag x m &&& m = 0 := by
  apply Nat.eq_of_testBit_eq
  intro i
  simp only [Nat.testBit_land, testBit_subFlag, Nat.zero_testBit]
  cases x.testBit i <;> cases m.testBit i <;> rfl

theorem subFlag_land_disj (x m m' : Nat) (h : m' &&& m = 0) :
    subFlag x m' &&& m = x &&& m := by
  apply Nat.eq_of_testBit_eq
  intro i
  have h2 := land_eq_zero_iff.mp h i
  simp only [Nat.testBit_land, testBit_subFlag]
  cases hx : x.testBit i <;> cases hm' : m'.testBit i <;> cases hm : m.testBit i <;>
    simp_all

theorem subFlag_land_zero (x m m' : Nat) (h : x &&& m = 0) :
    subFlag x m' &&& m = 0 := by
  apply Nat.eq_of_testBit_eq
  intro i
  have h2 := land_eq_zero_iff.mp h i
  simp only [Nat.testBit_land, testBit_subFlag, Nat.zero_testBit]
  cases hx : x.testBit i <;> cases hm' : m'.testBit i <;> cases hm : m.testBit i <;>
    simp_all

theorem land_mask_of (x a b : Nat) (h : a &&& b = b) : (x &&& a) &&& b = x &&& b := by
  rw [Nat.land_assoc, h]

theorem subFlag_subFlag (x a b : Nat) :
    subFlag (subFlag x a) b = subFlag x (a ||| b) := by
  apply Nat.eq_of_testBit_eq
  intro i
  simp only [testBit_subFlag, Nat.testBit_lor]
  cases x.testBit i <;> cases a.testBit i <;> cases b.testBit i <;> rfl

theorem subFlag_of_land_zero (x m : Nat) (h : x &&& m = 0) : subFlag x m = x := by
  apply Nat.eq_of_testBit_eq
  intro i
  have h2 := land_eq_zero_iff.mp h i
  simp only [testBit_subFlag]
  cases hx : x.testBit i <;> cases hm : m.testBit i <;> simp_all

/-! ## Lemmas: decimal representation and `itoa` -/

theorem decRep_lt {n : Nat} (h : n < 10) : decRep n = [Char.ofNat (48 + n)] := by
  rw [decRep]
  simp [h]

theorem decRep_ge {n : Nat} (h : 10 ≤ n) :
    decRep n = decRep (n / 10) ++ [Char.ofNat (48 + n % 10)] := by
  conv_lhs => rw [decRep]
  simp [Nat.not_lt.mpr h]

theorem decRep_ne_nil (n : Nat) : decRep n ≠ [] := by
  by_cases h : n < 10
  · rw [decRep_lt h]; simp
  · rw [decRep_ge (Nat.not_lt.mp h)]; simp

theorem decRep_digits (n : Nat) :
    ∀ c ∈ decRep n, ∃ d, d < 10 ∧ c = Char.ofNat (48 + d) := by
  induction n using Nat.strong_induction_on with
  | _ n ih =>
    by_cases h : n < 10
    · rw [decRep_lt h]
      intro c hc
      simp at hc
      exact ⟨n, h, hc⟩
    · rw [decRep_ge (Nat.not_lt.mp h)]
      intro c hc
      rcases List.mem_append.mp hc with hc | hc
      · exact ih (n / 10) (Nat.div_lt_self (by omega) (by omega)) c hc
      · simp at hc
        exact ⟨n % 10, Nat.mod_lt _ (by omega), hc⟩

theorem digit_char_ne : ∀ d : Nat, d < 10 →
    Char.ofNat (48 + d) ≠ '\n' ∧ Char.ofNat (48 + d) ≠ ' ' := by decide

theorem decRep_len_le : ∀ (k n : Nat), n < 10 ^ (k + 1) → (decRep n).length ≤ k + 1 := by
  intro k
  induction k with
  | zero =>
    intro n h
    rw [decRep_lt (by simpa using h)]
    simp
  | succ k ih =>
    intro n h
    by_cases h10 : n < 10
    · rw [decRep_lt h10]; simp
    · rw [decRep_ge (Nat.not_lt.mp h10)]
      have hdiv : n / 10 < 10 ^ (k + 1) := by
        apply Nat.div_lt_of_lt_mul
        calc n < 10 ^ (k + 2) := h
        _ = 10 * 10 ^ (k + 1) := by ring
      have := ih (n / 10) hdiv
      simp [List.length_append]
      omega

theorem itoaCore_eq : ∀ (room num : Nat) (wid : Int),
    (decRep num).length ≤ room → wid ≤ (room : Int) →
    itoaCore num wid room = some (padDec wid num) := by
  intro room
  induction room with
  | zero =>
    intro num wid h1 _
    have h2 := decRep_ne_nil num
    cases hd : decRep num with
    | nil => exact absurd hd h2
    | cons a l => rw [hd] at h1; simp at h1
  | succ r ih =>
    intro num wid h1 h2
    by_cases hg : 10 ≤ num ∨ 1 < wid
    · have hlen : (decRep (num / 10)).length ≤ r := by
        rcases hg with hg | hg
        · rw [decRep_ge hg] at h1
          simp [List.length_append] at h1
          omega
        · have hr1 : 1 ≤ r := by omega
          by_cases h10 : 10 ≤ num
          · rw [decRep_ge h10] at h1
            simp [List.length_append] at h1
            omega
          · have hz : num / 10 = 0 := Nat.div_eq_of_lt (by omega)
            rw [hz, decRep_lt (by omega)]
            simpa using hr1
      have hwid : wid - 1 ≤ (r : Int) := by omega
      have hrec := ih (num / 10) (wid - 1) hlen hwid
      simp only [itoaCore, if_pos hg, hrec, Option.map]
      congr 1
      by_cases h10 : 10 ≤ num
      · have hl : (decRep num).length = (decRep (num / 10)).length + 1 := by
          rw [decRep_ge h10]; simp
        rw [padDec, padDec, hl, decRep_ge h10, List.append_assoc]
        have harith : wid - 1 - ((decRep (num / 10)).length : Int)
            = wid - (((decRep (num / 10)).length + 1 : Nat) : Int) := by
          push_cast
          ring
        rw [harith]
      · have hw1 : 1 < wid := by tauto
        have hz : num / 10 = 0 := Nat.div_eq_of_lt (by omega)
        have hm : num % 10 = num := Nat.mod_eq_of_lt (by omega)
        rw [hz, hm, padDec, padDec, decRep_lt (show (0 : Nat) < 10 by norm_num),
            decRep_lt (show num < 10 by omega)]
        simp only [List.length_singleton]
        have c0 : Char.ofNat (48 + 0) = '0' := by decide
        rw [c0]
        rw [← List.replicate_succ']
        congr 2
        omega
    · push_neg at hg
      obtain ⟨h10, hw⟩ := hg
      simp only [itoaCore]
      rw [if_neg (show ¬(10 ≤ num ∨ 1 < wid) by push_neg; exact ⟨h10, hw⟩)]
      rw [padDec, decRep_lt h10]
      have hz : ((wid - (([Char.ofNat (48 + num)] : List Char)).length : Int)).toNat = 0 := by
        simp only [List.length_singleton]
        omega
      rw [hz]
      simp

theorem itoa_eq (buf : List Char) (num : Nat) (wid : Int)
    (h1 : (decRep num).length ≤ 20) (h2 : wid ≤ 20) :
    itoa buf num wid = some (buf ++ padDec wid num) := by
  rw [itoa, itoaCore_eq 20 num wid h1 (by exact_mod_cast h2)]
  rfl

theorem itoaCore_digits : ∀ (room num : Nat) (wid : Int) (ds : List Char),
    itoaCore num wid room = some ds →
    ds ≠ [] ∧ ∀ c ∈ ds, ∃ d, d < 10 ∧ c = Char.ofNat (48 + d) := by
  intro room
  induction room with
  | zero => intro num wid ds h; simp [itoaCore] at h
  | succ r ih =>
    intro num wid ds h
    simp only [itoaCore] at h
    split at h
    · cases hrec : itoaCore (num / 10) (wid - 1) r with
      | none => rw [hrec] at h; simp at h
      | some ds' =>
        rw [hrec] at h
        simp at h
        obtain ⟨hne, hdig⟩ := ih (num / 10) (wid - 1) ds' hrec
        subst h
        refine ⟨by simp, ?_⟩
        intro c hc
        rcases List.mem_append.mp hc with hc | hc
        · exact hdig c hc
        · simp at hc
          exact ⟨num % 10, Nat.mod_lt _ (by omega), hc⟩
    · simp at h
      subst h
      rename_i hcond
      push_neg at hcond
      exact ⟨by simp, by intro c hc; simp at hc; exact ⟨num, hcond.1, hc⟩⟩

/-! ## Lemmas: buffers, separators, fragments -/

theorem padDec_length (wid : Int) (n : Nat) (h : ((decRep n).length : Int) ≤ wid) :
    (padDec wid n).length = wid.toNat := by
  simp only [padDec, List.length_append, List.length_replicate]
  omega

theorem padDec_getLast (wid : Int) (n : Nat) :
    (padDec wid n).getLast? = (decRep n).getLast? := by
  rw [padDec, List.getLast?_append]
  cases hd : (decRep n).getLast? with
  | none =>
    have h2 : decRep n ≠ [] := decRep_ne_nil n
    have h3 := List.getLast?_isSome (l := decRep n)
    rw [hd] at h3
    simp at h3
    exact absurd h3 h2
  | some c => rfl

theorem decRep_getLast_digit (n : Nat) :
    ∃ c d, (decRep n).getLast? = some c ∧ d < 10 ∧ c = Char.ofNat (48 + d) := by
  have h2 : decRep n ≠ [] := decRep_ne_nil n
  have h3 : (decRep n).getLast?.isSome := List.getLast?_isSome.mpr h2
  cases hd : (decRep n).getLast? with
  | none => rw [hd] at h3; simp at h3
  | some c =>
    have hm : c ∈ decRep n := List.mem_of_getLast?_eq_some hd
    obtain ⟨d, hd10, hc⟩ := decRep_digits n c hm
    exact ⟨c, d, rfl, hd10, hc⟩

theorem addSpace_of_last_ne (b : List Char) (c : Char)
    (h1 : b.getLast? = some c) (h2 : c ≠ ' ') : addSpace b = some (b ++ [' ']) := by
  rw [addSpace, h1]
  simp [h2]

theorem addSpace_eval (b : List Char) (c : Char) (hl : b.getLast? = some c) :
    addSpace b = if c ≠ ' ' then some (b ++ [' ']) else some b := by
  rw [addSpace, hl]

theorem addSpace_post (b b' : List Char) (h : addSpace b = some b') :
    b'.count '\n' = b.count '\n' ∧ b'.getLast? = some ' ' := by
  cases hl : b.getLast? with
  | none => rw [addSpace, hl] at h; simp at h
  | some c =>
    rw [addSpace_eval b c hl] at h
    by_cases hc : c ≠ ' '
    · rw [if_pos hc] at h
      cases h
      exact ⟨by simp, by simp⟩
    · rw [if_neg hc] at h
      cases h
      push_neg at hc
      subst hc
      exact ⟨rfl, hl⟩

/-! ## C8: `itoa` never truncates an in-range value and pads exactly -/

/-- C8: for every `num` in Go's int range and width at most 20, `itoa`
appends the full decimal representation, left-padded with zeros to exactly
`wid` characters when `num` has fewer than `wid` digits, with no padding when
the digit count meets or exceeds `wid` (in particular when `wid` is
negative). -/
theorem itoa_appends_padded_decimal (buf : List Char) (num : Nat) (wid : Int)
    (hnum : num < 2 ^ 63) (hwid : wid ≤ 20) :
    itoa buf num wid = some (buf ++ padDec wid num) ∧
    (((decRep num).length : Int) < wid → (padDec wid num).length = wid.toNat) ∧
    (wid ≤ ((decRep num).length : Int) → padDec wid num = decRep num) := by
  have hlen : (decRep num).length ≤ 20 := by
    apply decRep_len_le 19
    calc num < 2 ^ 63 := hnum
    _ < 10 ^ 20 := by norm_num
  refine ⟨itoa_eq buf num wid hlen hwid, ?_, ?_⟩
  · intro h
    exact padDec_length wid num (le_of_lt h)
  · intro h
    rw [padDec]
    have hz : ((wid - ((decRep num).length : Int))).toNat = 0 := by omega
    rw [hz]
    simp

theorem itoa_appends_padded_decimal_witness :
    ((7 : Nat) < 2 ^ 63 ∧ (3 : Int) ≤ 20) ∧
    (itoa [] 7 3 = some ([] ++ padDec 3 7) ∧
     (((decRep 7).length : Int) < 3 → (padDec 3 7).length = (3 : Int).toNat) ∧
     ((3 : Int) ≤ ((decRep 7).length : Int) → padDec 3 7 = decRep 7)) :=
  ⟨⟨by norm_num, by norm_num⟩,
   itoa_appends_padded_decimal [] 7 3 (by norm_num) (by norm_num)⟩

/-! ## C6: the sub-second flag alone still emits the time component -/

/-- C6: with `Lmicroseconds` set and `Ltime` clear, `outputTime` still emits
`HH:MM:SS` followed by `.` and the microsecond value zero-padded to exactly
6 digits, then the separator, and clears both time bits. -/
theorem outputTime_micro_implies_time (flag : Nat) (t : DateTime) (buf : List Char)
    (hmic : flag &&& Lmicroseconds ≠ 0) (_htime : flag &&& Ltime = 0)
    (hh : t.hour < 24) (hmin : t.minute < 60) (hs : t.sec < 60)
    (hn : t.nanos < 10 ^ 9) :
    outputTime flag t buf =
      some (subFlag flag (Ltime ||| Lmicroseconds),
        buf ++ padDec 2 t.hour ++ [':'] ++ padDec 2 t.minute ++ [':']
            ++ padDec 2 t.sec ++ ['.'] ++ padDec 6 (t.nanos / 1000) ++ [' ']) ∧
    (padDec 6 (t.nanos / 1000)).length = 6 := by
  have hguard : flag &&& (Ltime ||| Lmicroseconds) ≠ 0 := by
    intro h0
    have h1 := land_mask_of flag (Ltime ||| Lmicroseconds) Lmicroseconds (by decide)
    have h2 : flag &&& Lmicroseconds = 0 := by
      rw [← h1, h0]
      decide
    exact hmic h2
  have hmicro : t.nanos / 1000 < 10 ^ 6 := by
    apply Nat.div_lt_of_lt_mul
    calc t.nanos < 10 ^ 9 := hn
    _ = 10 ^ 6 * 1000 := by norm_num
  have lh : (decRep t.hour).length ≤ 20 :=
    le_trans (decRep_len_le 1 t.hour (by omega)) (by norm_num)
  have lm : (decRep t.minute).length ≤ 20 :=
    le_trans (decRep_len_le 1 t.minute (by omega)) (by norm_num)
  have ls : (decRep t.sec).length ≤ 20 :=
    le_trans (decRep_len_le 1 t.sec (by omega)) (by norm_num)
  have lmic : (decRep (t.nanos / 1000)).length ≤ 6 := decRep_len_le 5 _ hmicro
  have hlast := decRep_getLast_digit (t.nanos / 1000)
  obtain ⟨c, d, hc1, hd10, hc2⟩ := hlast
  have hlast2 : (buf ++ padDec 2 t.hour ++ [':'] ++ padDec 2 t.minute ++ [':']
      ++ padDec 2 t.sec ++ ['.'] ++ padDec 6 (t.nanos / 1000)).getLast? = some c := by
    rw [List.getLast?_append, padDec_getLast, hc1]
    rfl
  have hcne : c ≠ ' ' := by
    rw [hc2]
    exact (digit_char_ne d hd10).2
  rw [outputTime, if_pos hguard, appendTime]
  rw [itoa_eq buf t.hour 2 lh (by norm_num)]
  simp only [Option.bind_eq_bind, Option.some_bind]
  rw [itoa_eq _ t.minute 2 lm (by norm_num)]
  simp only [Option.some_bind]
  rw [itoa_eq _ t.sec 2 ls (by norm_num)]
  simp only [Option.some_bind]
  rw [if_pos hmic]
  rw [itoa_eq _ (t.nanos / 1000) 6 (le_trans lmic (by norm_num)) (by norm_num)]
  simp only [Option.some_bind]
  rw [addSpace_of_last_ne _ c hlast2 hcne]
  simp only [Option.map_some']
  constructor
  · trivial
  · exact padDec_length 6 (t.nanos / 1000) (by exact_mod_cast lmic)

theorem outputTime_micro_implies_time_witness :
    ((LstdFlags ||| Lmicroseconds) &&& Ldate ≠ 0 ∧
     (Lmicroseconds &&& Lmicroseconds ≠ 0 ∧ Lmicroseconds &&& Ltime = 0)) ∧
    (outputTime Lmicroseconds ⟨2024, 1, 2, 3, 4, 5, 6000⟩ [] =
      some (subFlag Lmicroseconds (Ltime ||| Lmicroseconds),
        [] ++ padDec 2 3 ++ [':'] ++ padDec 2 4 ++ [':'] ++ padDec 2 5
           ++ ['.'] ++ padDec 6 6 ++ [' ']) ∧
     (padDec 6 (6000 / 1000)).length = 6) :=
  ⟨⟨by decide, by decide, by decide⟩,
   outputTime_micro_implies_time Lmicroseconds ⟨2024, 1, 2, 3, 4, 5, 6000⟩ []
     (by decide) (by decide) (by norm_num) (by norm_num) (by norm_num) (by norm_num)⟩

/-! ## C7: short-path formatting takes precedence, with the index-0 quirk -/

theorem appendPath_congr (f1 f2 : Nat) (file : List Char) (line : Nat)
    (buf : List Char) (h : f1 &&& Lshortfile = f2 &&& Lshortfile) :
    appendPath f1 file line buf = appendPath f2 file line buf := by
  rw [appendPath, appendPath, h]

/-- C7 counterexample: with both path flags set and file `"/a.go"`, whose only
slash is at index 0, the emitted call-site keeps the slash: the code does not
strip "everything up to and including the last '/'" here. -/
theorem outputPath_slash_at_zero_cex :
    outputPath (Lshortfile ||| Llongfile) ("/a.go".toList) 7 [] =
      some (0, ("/a.go:7 ".toList)) ∧
    shortName ("/a.go".toList) ≠ ("a.go".toList) := by
  constructor
  · decide
  · decide

theorem shortScan_found (file : List Char) :
    ∀ (k i : Nat), 1 ≤ i → i ≤ k → file.getD i ' ' = '/' →
    (∀ j, i < j → j ≤ k → file.getD j ' ' ≠ '/') →
    shortScan file k = file.drop (i + 1) := by
  intro k
  induction k with
  | zero => intro i h1 h2; omega
  | succ k ih =>
    intro i h1 h2 h3 h4
    by_cases hik : i = k + 1
    · subst hik
      rw [shortScan, if_pos h3]
    · have hik2 : i ≤ k := by omega
      have hne : file.getD (k + 1) ' ' ≠ '/' := h4 (k + 1) (by omega) (by omega)
      rw [shortScan, if_neg hne]
      exact ih i h1 hik2 h3 (fun j hj1 hj2 => h4 j hj1 (by omega))

/-- C7 (amended): when the short-path bit is set, `outputPath` behaves exactly
as if the long-path bit were absent (short wins); and the shortening strips
everything up to and including the last '/' that occurs at a positive index
(a slash at index 0 alone is never stripped). -/
theorem outputPath_short_precedence :
    (∀ (flag : Nat) (file : List Char) (line : Nat) (buf : List Char),
        flag &&& Lshortfile ≠ 0 →
        outputPath flag file line buf =
          outputPath (subFlag flag Llongfile) file line buf) ∧
    (∀ (file : List Char) (i : Nat), 1 ≤ i → i < file.length →
        file.getD i ' ' = '/' →
        (∀ j, i < j → j < file.length → file.getD j ' ' ≠ '/') →
        shortName file = file.drop (i + 1)) := by
  constructor
  · intro flag file line buf hshort
    have hsub : subFlag flag Llongfile &&& Lshortfile = flag &&& Lshortfile :=
      subFlag_land_disj flag Lshortfile Llongfile (by decide)
    have hg1 : flag &&& (Lshortfile ||| Llongfile) ≠ 0 := by
      intro h0
      have h1 := land_mask_of flag (Lshortfile ||| Llongfile) Lshortfile (by decide)
      have h2 : flag &&& Lshortfile = 0 := by
        rw [← h1, h0]
        decide
      exact hshort h2
    have hg2 : subFlag flag Llongfile &&& (Lshortfile ||| Llongfile) ≠ 0 := by
      intro h0
      have h1 := land_mask_of (subFlag flag Llongfile) (Lshortfile ||| Llongfile)
        Lshortfile (by decide)
      have h2 : subFlag flag Llongfile &&& Lshortfile = 0 := by
        rw [← h1, h0]
        decide
      rw [hsub] at h2
      exact hshort h2
    rw [outputPath, outputPath, if_pos hg1, if_pos hg2]
    rw [appendPath_congr flag (subFlag flag Llongfile) file line buf hsub.symm]
    rw [subFlag_subFlag]
    have : Llongfile ||| (Lshortfile ||| Llongfile) = Lshortfile ||| Llongfile := by decide
    rw [this]
  · intro file i h1 h2 h3 h4
    have hlen : file.length ≠ 0 := by omega
    cases hl : file.length with
    | zero => exact absurd hl hlen
    | succ n =>
      have : shortName file = shortScan file n := by
        rw [shortName, hl]
      rw [this]
      exact shortScan_found file n i h1 (by omega) h3
        (fun j hj1 hj2 => h4 j hj1 (by omega))

theorem outputPath_short_precedence_witness :
    ((Lshortfile ||| Llongfile) &&& Lshortfile ≠ 0 ∧
     (1 ≤ 1 ∧ 1 < ("a/b.go".toList).length ∧ ("a/b.go".toList).getD 1 ' ' = '/' ∧
       (∀ j, 1 < j → j < ("a/b.go".toList).length → ("a/b.go".toList).getD j ' ' ≠ '/'))) ∧
    (outputPath (Lshortfile ||| Llongfile) ("a/b.go".toList) 3 [] =
       outputPath (subFlag (Lshortfile ||| Llongfile) Llongfile) ("a/b.go".toList) 3 []) ∧
    shortName ("a/b.go".toList) = ("a/b.go".toList).drop (1 + 1) := by
  have hforall : ∀ j, 1 < j → j < ("a/b.go".toList).length →
      ("a/b.go".toList).getD j ' ' ≠ '/' := by
    intro j hj1 hj2
    have hj3 : j < 6 := hj2
    interval_cases j <;> decide
  exact ⟨⟨by decide, by decide, by decide, by decide, hforall⟩,
    outputPath_short_precedence.1 (Lshortfile ||| Llongfile) ("a/b.go".toList) 3 []
      (by decide),
    outputPath_short_precedence.2 ("a/b.go".toList) 1 (by decide) (by decide)
      (by decide) hforall⟩

/-! ## C2: the `Discard` threshold and the leveled methods -/

/-- C2 counterexample: with the threshold set to `Discard`, `Trace` (the
lowest-level method) does write a line — `Discard` does not disable output. -/
theorem trace_at_discard_writes_cex :
    Log.Trace ⟨[]⟩
      { output := none, level := .Discard, name := "", flag := 0, pfx := "",
        order := ⟨none, 0⟩ }
      ⟨2024, 1, 2, 3, 4, 5, 0⟩ (fun t => t) "f.go" 1 "x" = some ['x', '\n'] := by
  decide

/-- C2 (amended): with the threshold set to `Discard` — the minimum rank —
every leveled print method's test `l.level ≤ methodLevel` succeeds, so every
method invokes `Out`; no output is suppressed. -/
theorem discard_threshold_invokes_out (st : Store) (l : Log) (now : DateTime)
    (utc : DateTime → DateTime) (file : String) (line : Nat) (msg : String)
    (h : l.level = .Discard) :
    Log.Trace st l now utc file line msg = Out st l .TraceLevel msg now utc file line ∧
    Log.Debug st l now utc file line msg = Out st l .DebugLevel msg now utc file line ∧
    Log.Info st l now utc file line msg = Out st l .InfoLevel msg now utc file line ∧
    Log.Warn st l now utc file line msg = Out st l .WarnLevel msg now utc file line ∧
    Log.Error st l now utc file line msg = Out st l .ErrorLevel msg now utc file line ∧
    Log.Panic st l now utc file line msg = Out st l .PanicLevel msg now utc file line ∧
    Log.Fatal st l now utc file line msg = Out st l .FatalLevel msg now utc file line := by
  refine ⟨?_, ?_, ?_, ?_, ?_, ?_, ?_⟩ <;>
    simp [Log.Trace, Log.Debug, Log.Info, Log.Warn, Log.Error, Log.Panic, Log.Fatal,
          h, logLevel.toNat]

theorem discard_threshold_invokes_out_witness :
    (({ output := none, level := .Discard, name := "", flag := 0, pfx := "",
        order := ⟨none, 0⟩ } : Log).level = logLevel.Discard) ∧
    (Log.Trace ⟨[]⟩
        { output := none, level := .Discard, name := "", flag := 0, pfx := "",
          order := ⟨none, 0⟩ }
        ⟨2024, 1, 2, 3, 4, 5, 0⟩ (fun t => t) "f.go" 1 "y" =
      Out ⟨[]⟩
        { output := none, level := .Discard, name := "", flag := 0, pfx := "",
          order := ⟨none, 0⟩ } .TraceLevel "y" ⟨2024, 1, 2, 3, 4, 5, 0⟩
        (fun t => t) "f.go" 1) :=
  ⟨rfl,
   (discard_threshold_invokes_out ⟨[]⟩
     { output := none, level := .Discard, name := "", flag := 0, pfx := "",
       order := ⟨none, 0⟩ }
     ⟨2024, 1, 2, 3, 4, 5, 0⟩ (fun t => t) "f.go" 1 "y" rfl).1⟩

/-! ## C9: `addSpace` panics on an empty buffer -/

/-- C9: `addSpace` on the empty buffer is the index-out-of-range panic
(`none`), and consequently a formatting pass whose first emitted fragment is
empty — flag set `Lmsgprefix` only with an empty prefix string — panics
instead of writing. -/
theorem empty_first_fragment_panics :
    addSpace [] = none ∧
    ∀ (st : Store) (level : logLevel) (msg : String) (now : DateTime)
      (utc : DateTime → DateTime) (file : String) (line : Nat),
      Out st { output := none, level := .InfoLevel, name := "", flag := Lmsgpfx,
               pfx := "", order := ⟨none, 0⟩ } level msg now utc file line = none := by
  refine ⟨rfl, ?_⟩
  intro st level msg now utc file line
  have hutc : Lmsgpfx &&& LUTC = 0 := by decide
  have hdate : Lmsgpfx &&& Ldate = 0 := by decide
  have htime : Lmsgpfx &&& (Ltime ||| Lmicroseconds) = 0 := by decide
  have hlvl : Lmsgpfx &&& Llevel = 0 := by decide
  have hpath : Lmsgpfx &&& (Lshortfile ||| Llongfile) = 0 := by decide
  have hpfx : Lmsgpfx &&& Lmsgpfx ≠ 0 := by decide
  have hemp : ("" : String).toList = [] := rfl
  simp [Out, sliceView, backing, outputDate, outputTime, outputLevel, outputPath,
        outputPfx, appendPfx, addSpace, hutc, hdate, htime, hlvl, hpath, hpfx, hemp]
  decide

/-! ## Generic list-store lemmas -/

theorem getD_append_left {α : Type} (L L' : List α) (i : Nat) (d : α)
    (h : i < L.length) : (L ++ L').getD i d = L.getD i d := by
  simp [List.getD_eq_getElem?_getD, List.getElem?_append_left h]

theorem getD_append_length {α : Type} (L : List α) (x : α) (d : α) :
    (L ++ [x]).getD L.length d = x := by
  simp [List.getD_eq_getElem?_getD, List.getElem?_concat_length]

theorem getD_set_self {α : Type} (L : List α) (i : Nat) (a d : α)
    (h : i < L.length) : (L.set i a).getD i d = a := by
  simp [List.getD_eq_getElem?_getD, List.getElem?_set_self h]

theorem getD_set_ne {α : Type} (L : List α) (i j : Nat) (a d : α) (h : i ≠ j) :
    (L.set i a).getD j d = L.getD j d := by
  simp [List.getD_eq_getElem?_getD, List.getElem?_set_ne h]

theorem getD_of_length_le {α : Type} (L : List α) (i : Nat) (d : α)
    (h : L.length ≤ i) : L.getD i d = d := by
  simp [List.getD_eq_getElem?_getD, List.getElem?_eq_none h]

/-! ## C5 / C4: order-slice semantics -/

theorem view_goAppend_zero (st : Store) (s : OrderSlice) (xs : List logOrder) :
    sliceView (goAppend st { s with len := 0 } xs).1
      (goAppend st { s with len := 0 } xs).2 = xs := by
  cases s with
  | mk arr len =>
    cases arr with
    | none =>
      simp [goAppend, backing, sliceView, getD_append_length]
    | some i =>
      simp only [goAppend, backing, sliceView]
      split
      · rename_i h
        dsimp only
        by_cases hi : i < st.arrays.length
        · rw [getD_set_self _ _ _ _ hi]
          simp [List.take_left']
        · have harr : st.arrays.getD i [] = [] :=
            getD_of_length_le _ _ _ (Nat.le_of_not_lt hi)
          rw [harr] at h
          have hxs : xs = [] := by simpa using h
          subst hxs
          simp [harr]
      · rename_i h
        dsimp only
        rw [getD_append_length]
        simp [List.take_left']

theorem view_SetOrder (st : Store) (l : Log) (xs : List logOrder) :
    sliceView (SetOrder st l xs).1 (SetOrder st l xs).2.order = xs := by
  have h := view_goAppend_zero st l.order xs
  simpa [SetOrder] using h

/-- C5: re-setting the order replaces the previous order entirely:
`SetOrder a` then `SetOrder b` leaves the effective order exactly `b`, the
same order configuration `SetOrder b` alone produces. -/
theorem setOrder_replaces (st : Store) (l : Log) (a b : List logOrder) :
    sliceView (SetOrder (SetOrder st l a).1 (SetOrder st l a).2 b).1
      (SetOrder (SetOrder st l a).1 (SetOrder st l a).2 b).2.order = b ∧
    sliceView (SetOrder st l b).1 (SetOrder st l b).2.order = b :=
  ⟨view_SetOrder (SetOrder st l a).1 (SetOrder st l a).2 b, view_SetOrder st l b⟩

theorem view_goAppend_preserves (st : Store) (s t : OrderSlice)
    (xs : List logOrder) (hwf : WFS st t)
    (hne : ∀ j, t.arr = some j → s.arr ≠ some j) :
    sliceView (goAppend st s xs).1 t = sliceView st t := by
  cases ht : t.arr with
  | none =>
    simp [sliceView, backing, ht]
  | some j =>
    have hj : j < st.arrays.length := by
      rw [WFS, ht] at hwf
      exact hwf
    cases hs : s.arr with
    | none =>
      simp only [goAppend, hs, sliceView, backing, ht]
      rw [getD_append_left _ _ _ _ hj]
    | some i =>
      have hij : i ≠ j := by
        intro hij
        exact hne j ht (by rw [hs, hij])
      simp only [goAppend, backing, hs, sliceView, ht]
      split
      · dsimp only
        rw [getD_set_ne _ _ _ _ _ hij]
      · dsimp only
        rw [getD_append_left _ _ _ _ hj]

theorem WFS_append (st : Store) (s : OrderSlice) (L : List (List logOrder))
    (h : WFS st s) : WFS ⟨st.arrays ++ L⟩ s := by
  cases hs : s.arr with
  | none => simp [WFS, hs]
  | some i =>
    simp only [WFS, hs] at h ⊢
    simp only [List.length_append]
    omega

theorem view_append_array (st : Store) (s : OrderSlice) (v : List logOrder)
    (hwf : WFS st s) : sliceView ⟨st.arrays ++ [v]⟩ s = sliceView st s := by
  cases hs : s.arr with
  | none => simp [sliceView, backing, hs]
  | some i =>
    have hi : i < st.arrays.length := by
      simp only [WFS, hs] at hwf
      exact hwf
    simp only [sliceView, backing, hs]
    rw [getD_append_left _ _ _ _ hi]

/-- C4 counterexample: `Extend` does not copy the parent's `name`; a child of
a parent named "G" has the zero-value name, so the child's configuration is
not identical to the parent's. -/
theorem extend_drops_name_cex :
    (Extend ⟨[]⟩
      { output := none, level := .InfoLevel, name := "G", flag := 0, pfx := "",
        order := ⟨none, 0⟩ } []).2.name ≠
      ({ output := none, level := .InfoLevel, name := "G", flag := 0, pfx := "",
         order := ⟨none, 0⟩ } : Log).name := by
  decide

/-- C4 (amended): `Extend` with no options copies the parent's output, level,
flag set, message prefix and (deep-copied) order — but not the name, which is
left at the zero value — and afterwards `SetOrder` on the child leaves the
parent's effective order unchanged and `SetOrder` on the parent leaves the
child's effective order unchanged. -/
theorem extend_value_snapshot (st : Store) (parent : Log)
    (hwf : WFS st parent.order) :
    (Extend st parent []).2.output = parent.output ∧
    (Extend st parent []).2.level = parent.level ∧
    (Extend st parent []).2.flag = parent.flag ∧
    (Extend st parent []).2.pfx = parent.pfx ∧
    (Extend st parent []).2.name = "" ∧
    sliceView (Extend st parent []).1 (Extend st parent []).2.order
      = sliceView st parent.order ∧
    sliceView (Extend st parent []).1 parent.order = sliceView st parent.order ∧
    (∀ b, sliceView (SetOrder (Extend st parent []).1 (Extend st parent []).2 b).1
        parent.order = sliceView st parent.order) ∧
    (∀ b, sliceView (SetOrder (Extend st parent []).1 parent b).1
        (Extend st parent []).2.order = sliceView st parent.order) := by
  have hE1 : (Extend st parent []).1 = ⟨st.arrays ++ [sliceView st parent.order]⟩ := rfl
  have hE2 : (Extend st parent []).2.order
      = ⟨some st.arrays.length, (sliceView st parent.order).length⟩ := rfl
  have hwfp : WFS (Extend st parent []).1 parent.order := by
    rw [hE1]
    exact WFS_append st parent.order _ hwf
  have hparent : sliceView (Extend st parent []).1 parent.order
      = sliceView st parent.order := by
    rw [hE1]
    exact view_append_array st parent.order _ hwf
  have hchild : sliceView (Extend st parent []).1 (Extend st parent []).2.order
      = sliceView st parent.order := by
    rw [hE1, hE2]
    simp only [sliceView, backing]
    rw [getD_append_length]
    exact List.take_length _
  refine ⟨rfl, rfl, rfl, rfl, rfl, hchild, hparent, ?_, ?_⟩
  · intro b
    have hne : ∀ j, parent.order.arr = some j →
        ({ (Extend st parent []).2.order with len := 0 } : OrderSlice).arr ≠ some j := by
      intro j hj hcontra
      have hjlt : j < st.arrays.length := by
        simp only [WFS, hj] at hwf
        exact hwf
      rw [hE2] at hcontra
      simp at hcontra
      omega
    have h := view_goAppend_preserves (Extend st parent []).1
      { (Extend st parent []).2.order with len := 0 } parent.order b hwfp hne
    have hso : (SetOrder (Extend st parent []).1 (Extend st parent []).2 b).1
        = (goAppend (Extend st parent []).1
            { (Extend st parent []).2.order with len := 0 } b).1 := rfl
    rw [hso, h, hparent]
  · intro b
    have hwfc : WFS (Extend st parent []).1 (Extend st parent []).2.order := by
      rw [hE1, hE2]
      simp [WFS]
    have hne : ∀ j, (Extend st parent []).2.order.arr = some j →
        ({ parent.order with len := 0 } : OrderSlice).arr ≠ some j := by
      intro j hj hcontra
      rw [hE2] at hj
      simp at hj
      have hjlt : j < st.arrays.length := by
        cases hp : parent.order.arr with
        | none => simp [hp] at hcontra
        | some i =>
          simp only [WFS, hp] at hwf
          simp only [hp] at hcontra
          cases hcontra
          exact hwf
      omega
    have h := view_goAppend_preserves (Extend st parent []).1
      { parent.order with len := 0 } (Extend st parent []).2.order b hwfc hne
    have hso : (SetOrder (Extend st parent []).1 parent b).1
        = (goAppend (Extend st parent []).1
            { parent.order with len := 0 } b).1 := rfl
    rw [hso, h, hchild]

theorem extend_value_snapshot_witness :
    WFS ⟨[[OrderDate]]⟩ (⟨some 0, 1⟩ : OrderSlice) ∧
    ((Extend ⟨[[OrderDate]]⟩
        { output := some .stderr, level := .WarnLevel, name := "p", flag := LstdFlags,
          pfx := "P: ", order := ⟨some 0, 1⟩ } []).2.flag = LstdFlags ∧
     sliceView (SetOrder (Extend ⟨[[OrderDate]]⟩
        { output := some .stderr, level := .WarnLevel, name := "p", flag := LstdFlags,
          pfx := "P: ", order := ⟨some 0, 1⟩ } []).1
        (Extend ⟨[[OrderDate]]⟩
        { output := some .stderr, level := .WarnLevel, name := "p", flag := LstdFlags,
          pfx := "P: ", order := ⟨some 0, 1⟩ } []).2 [OrderMsg, OrderLevel]).1
        (⟨some 0, 1⟩ : OrderSlice)
      = sliceView ⟨[[OrderDate]]⟩ (⟨some 0, 1⟩ : OrderSlice)) := by
  have h := extend_value_snapshot ⟨[[OrderDate]]⟩
    { output := some .stderr, level := .WarnLevel, name := "p", flag := LstdFlags,
      pfx := "P: ", order := ⟨some 0, 1⟩ }
    (by simp [WFS])
  exact ⟨by simp [WFS], h.2.2.1, h.2.2.2.2.2.2.2.1 [OrderMsg, OrderLevel]⟩

/-! ## C10: `OOutput` accumulates sinks -/

theorem sinksOfList_append : ∀ (L1 L2 : List Writer),
    sinksOfList (L1 ++ L2) = sinksOfList L1 ++ sinksOfList L2 := by
  intro L1 L2
  induction L1 with
  | nil => simp [sinksOfList]
  | cons w ws ih => simp [sinksOfList, ih]

/-- C10: applying `OOutput` to a logger that already has an output keeps that
output as a fan-out target; after two applications the final writer fans out
to all writers from both applications plus the original output, and a nil
first writer is replaced by standard error. -/
theorem oOutput_accumulates (l : Log) (w0 : Writer) (a1 b1 : Option Writer)
    (ws1 ws2 : List Writer) (h : l.output = some w0) :
    (∃ W, (OOutput b1 ws2 (OOutput a1 ws1 l)).output = some W ∧
      sinksOf W = sinksOfList ws2 ++ sinksOf (resolveW1 b1)
        ++ (sinksOfList ws1 ++ sinksOf (resolveW1 a1) ++ sinksOf w0)) ∧
    resolveW1 none = Writer.stderr := by
  refine ⟨?_, rfl⟩
  refine ⟨.multi ((ws2 ++ [resolveW1 b1])
      ++ [.multi ((ws1 ++ [resolveW1 a1]) ++ [w0])]), ?_, ?_⟩
  · simp [OOutput, h]
  · simp [sinksOf, sinksOfList_append, sinksOfList, List.append_assoc]

theorem oOutput_accumulates_witness :
    (({ output := some (.sink 0), level := .InfoLevel, name := "", flag := 0,
        pfx := "", order := ⟨none, 0⟩ } : Log).output = some (.sink 0)) ∧
    ((∃ W, (OOutput (some (.sink 2)) []
        (OOutput none [.sink 1]
          { output := some (.sink 0), level := .InfoLevel, name := "", flag := 0,
            pfx := "", order := ⟨none, 0⟩ })).output = some W ∧
      sinksOf W = sinksOfList [] ++ sinksOf (resolveW1 (some (.sink 2)))
        ++ (sinksOfList [.sink 1] ++ sinksOf (resolveW1 none) ++ sinksOf (.sink 0))) ∧
     resolveW1 none = Writer.stderr) :=
  ⟨rfl,
   oOutput_accumulates
     { output := some (.sink 0), level := .InfoLevel, name := "", flag := 0,
       pfx := "", order := ⟨none, 0⟩ }
     (.sink 0) none (some (.sink 2)) [.sink 1] [] rfl⟩

/-! ## C1 machinery: masks, step lemmas, the fold-render refinement -/

theorem fmask_disjoint : ∀ (F G : Field), F ≠ G → fmask F &&& fmask G = 0 := by
  intro F G h
  cases F <;> cases G <;> first | exact absurd rfl h | decide

theorem maskInv_refl (flag : Nat) : maskInv flag flag := fun _ => Or.inl rfl

theorem maskInv_clear (flag rem : Nat) (F0 : Field) (h : maskInv flag rem) :
    maskInv flag (subFlag rem (fmask F0)) := by
  intro F
  by_cases hF : F = F0
  · subst hF
    right
    exact subFlag_land_self rem (fmask F)
  · rw [subFlag_land_disj rem (fmask F) (fmask F0)
      (fmask_disjoint F0 F (fun hc => hF hc.symm))]
    exact h F

theorem onF_subFlag_ne (rem : Nat) (F0 F : Field) (h : F ≠ F0) :
    onF (subFlag rem (fmask F0)) F = onF rem F := by
  rw [onF, onF, subFlag_land_disj rem (fmask F) (fmask F0)
    (fmask_disjoint F0 F (fun hc => h hc.symm))]

theorem onF_subFlag_self (rem : Nat) (F : Field) :
    onF (subFlag rem (fmask F)) F = false := by
  rw [onF, subFlag_land_self]
  rfl

theorem appendTime_congr (f1 f2 : Nat) (t : DateTime) (buf : List Char)
    (h : f1 &&& Lmicroseconds = f2 &&& Lmicroseconds) :
    appendTime f1 t buf = appendTime f2 t buf := by
  rw [appendTime, appendTime, h]

theorem guarded_split (flag m : Nat) (A : List Char → Option (List Char))
    (buf : List Char) (f' : Nat) (b' : List Char)
    (h : (if flag &&& m ≠ 0 then (A buf).map (fun b => (subFlag flag m, b))
          else some (flag, buf)) = some (f', b')) :
    (flag &&& m ≠ 0 ∧ f' = subFlag flag m ∧ A buf = some b') ∨
    (flag &&& m = 0 ∧ f' = flag ∧ b' = buf) := by
  by_cases hg : flag &&& m ≠ 0
  · rw [if_pos hg] at h
    cases ha : A buf with
    | none => rw [ha] at h; simp at h
    | some b2 =>
      rw [ha] at h
      simp only [Option.map_some', Option.some.injEq, Prod.mk.injEq] at h
      left
      exact ⟨hg, h.1.symm, congrArg some h.2⟩
  · rw [if_neg hg] at h
    push_neg at hg
    simp only [Option.some.injEq, Prod.mk.injEq] at h
    right
    exact ⟨hg, h.1.symm, h.2.symm⟩

theorem outputDate_split (flag : Nat) (t : DateTime) (buf : List Char)
    (f' : Nat) (b' : List Char) (h : outputDate flag t buf = some (f', b')) :
    (flag &&& Ldate ≠ 0 ∧ f' = subFlag flag Ldate ∧ appendDate t buf = some b') ∨
    (flag &&& Ldate = 0 ∧ f' = flag ∧ b' = buf) :=
  guarded_split flag Ldate (appendDate t) buf f' b' h

theorem outputTime_split (flag : Nat) (t : DateTime) (buf : List Char)
    (f' : Nat) (b' : List Char) (h : outputTime flag t buf = some (f', b')) :
    (flag &&& (Ltime ||| Lmicroseconds) ≠ 0 ∧
      f' = subFlag flag (Ltime ||| Lmicroseconds) ∧ appendTime flag t buf = some b') ∨
    (flag &&& (Ltime ||| Lmicroseconds) = 0 ∧ f' = flag ∧ b' = buf) :=
  guarded_split flag (Ltime ||| Lmicroseconds) (appendTime flag t) buf f' b' h

theorem outputLevel_split (flag : Nat) (level : logLevel) (buf : List Char)
    (f' : Nat) (b' : List Char) (h : outputLevel flag level buf = some (f', b')) :
    (flag &&& Llevel ≠ 0 ∧ f' = subFlag flag Llevel ∧ appendLevel level buf = some b') ∨
    (flag &&& Llevel = 0 ∧ f' = flag ∧ b' = buf) :=
  guarded_split flag Llevel (appendLevel level) buf f' b' h

theorem outputPath_split (flag : Nat) (file : List Char) (line : Nat)
    (buf : List Char) (f' : Nat) (b' : List Char)
    (h : outputPath flag file line buf = some (f', b')) :
    (flag &&& (Lshortfile ||| Llongfile) ≠ 0 ∧
      f' = subFlag flag (Lshortfile ||| Llongfile) ∧
      appendPath flag file line buf = some b') ∨
    (flag &&& (Lshortfile ||| Llongfile) = 0 ∧ f' = flag ∧ b' = buf) :=
  guarded_split flag (Lshortfile ||| Llongfile) (appendPath flag file line) buf f' b' h

theorem outputPfx_split (flag : Nat) (p : String) (buf : List Char)
    (f' : Nat) (b' : List Char) (h : outputPfx flag p buf = some (f', b')) :
    (flag &&& Lmsgpfx ≠ 0 ∧ f' = subFlag flag Lmsgpfx ∧ appendPfx p buf = some b') ∨
    (flag &&& Lmsgpfx = 0 ∧ f' = flag ∧ b' = buf) :=
  guarded_split flag Lmsgpfx (appendPfx p) buf f' b' h

theorem outStep_eval_date (l : Log) (level : logLevel) (msg : List Char)
    (t : DateTime) (file : List Char) (line : Nat) (s : Nat × Bool × List Char) :
    outStep l level msg t file line s OrderDate
      = (outputDate s.1 t s.2.2).map (fun p => (p.1, s.2.1, p.2)) := by
  obtain ⟨fl, w, buf⟩ := s
  rw [outStep, if_pos rfl]

theorem outStep_eval_time (l : Log) (level : logLevel) (msg : List Char)
    (t : DateTime) (file : List Char) (line : Nat) (s : Nat × Bool × List Char) :
    outStep l level msg t file line s OrderTime
      = (outputTime s.1 t s.2.2).map (fun p => (p.1, s.2.1, p.2)) := by
  obtain ⟨fl, w, buf⟩ := s
  rw [outStep, if_neg (by decide), if_pos rfl]

theorem outStep_eval_level (l : Log) (level : logLevel) (msg : List Char)
    (t : DateTime) (file : List Char) (line : Nat) (s : Nat × Bool × List Char) :
    outStep l level msg t file line s OrderLevel
      = (outputLevel s.1 level s.2.2).map (fun p => (p.1, s.2.1, p.2)) := by
  obtain ⟨fl, w, buf⟩ := s
  rw [outStep, if_neg (by decide), if_neg (by decide), if_pos rfl]

theorem outStep_eval_pfx (l : Log) (level : logLevel) (msg : List Char)
    (t : DateTime) (file : List Char) (line : Nat) (s : Nat × Bool × List Char) :
    outStep l level msg t file line s OrderPfx
      = (outputPfx s.1 l.pfx s.2.2).map (fun p => (p.1, s.2.1, p.2)) := by
  obtain ⟨fl, w, buf⟩ := s
  rw [outStep, if_neg (by decide), if_neg (by decide), if_neg (by decide), if_pos rfl]

theorem outStep_eval_path (l : Log) (level : logLevel) (msg : List Char)
    (t : DateTime) (file : List Char) (line : Nat) (s : Nat × Bool × List Char) :
    outStep l level msg t file line s OrderPath
      = (outputPath s.1 file line s.2.2).map (fun p => (p.1, s.2.1, p.2)) := by
  obtain ⟨fl, w, buf⟩ := s
  rw [outStep, if_neg (by decide), if_neg (by decide), if_neg (by decide),
      if_neg (by decide), if_pos rfl]

theorem outStep_eval_msg (l : Log) (level : logLevel) (msg : List Char)
    (t : DateTime) (file : List Char) (line : Nat) (s : Nat × Bool × List Char) :
    outStep l level msg t file line s OrderMsg
      = some (s.1, (outputMsg l.flag s.2.1 level msg s.2.2).1,
              (outputMsg l.flag s.2.1 level msg s.2.2).2) := by
  obtain ⟨fl, w, buf⟩ := s
  rw [outStep, if_neg (by decide), if_neg (by decide), if_neg (by decide),
      if_neg (by decide), if_neg (by decide), if_pos rfl]

theorem outStep_eval_other (l : Log) (level : logLevel) (msg : List Char)
    (t : DateTime) (file : List Char) (line : Nat) (s : Nat × Bool × List Char)
    (o : logOrder) (h1 : o ≠ OrderDate) (h2 : o ≠ OrderTime) (h3 : o ≠ OrderLevel)
    (h4 : o ≠ OrderPfx) (h5 : o ≠ OrderPath) (h6 : o ≠ OrderMsg) :
    outStep l level msg t file line s o = some s := by
  obtain ⟨fl, w, buf⟩ := s
  rw [outStep, if_neg h1, if_neg h2, if_neg h3, if_neg h4, if_neg h5, if_neg h6]

theorem render_cons (l : Log) (level : logLevel) (msg : List Char) (t : DateTime)
    (file : List Char) (line : Nat) (buf : List Char) (F : Field) (fs : List Field) :
    renderFrom l level msg t file line buf (F :: fs)
      = (appendField l level msg t file line F buf) >>=
          fun b => renderFrom l level msg t file line b fs := by
  rw [renderFrom, List.foldlM_cons]
  rfl

theorem fold_render_emit (l : Log) (level : logLevel) (msg : List Char)
    (t : DateTime) (file : List Char) (line : Nat) (rest : List logOrder)
    (rem : Nat) (w : Bool) (buf : List Char) (s' : Nat × Bool × List Char)
    (F0 : Field) (hF0 : F0 ≠ Field.msg) (b2 : List Char)
    (hinv : maskInv l.flag rem)
    (hg : rem &&& fmask F0 ≠ 0)
    (happ : appendField l level msg t file line F0 buf = some b2)
    (hrest : List.foldlM (outStep l level msg t file line)
        (subFlag rem (fmask F0), w, b2) rest = some s')
    (ih : ∀ rem2 w2 buf2 s2, maskInv l.flag rem2 →
        List.foldlM (outStep l level msg t file line) (rem2, w2, buf2) rest = some s2 →
        ∃ fs, renderFrom l level msg t file line buf2 fs = some s2.2.2 ∧
          maskInv l.flag s2.1 ∧
          (∀ F, F ≠ Field.msg → fs.count F + cnt (onF s2.1 F) = cnt (onF rem2 F)) ∧
          fs.count Field.msg + cnt w2 = cnt s2.2.1) :
    ∃ fs, renderFrom l level msg t file line buf fs = some s'.2.2 ∧
      maskInv l.flag s'.1 ∧
      (∀ F, F ≠ Field.msg → fs.count F + cnt (onF s'.1 F) = cnt (onF rem F)) ∧
      fs.count Field.msg + cnt w = cnt s'.2.1 := by
  have hinv1 := maskInv_clear l.flag rem F0 hinv
  obtain ⟨fs', hr, hinv', hc, hm⟩ := ih (subFlag rem (fmask F0)) w b2 s' hinv1 hrest
  refine ⟨F0 :: fs', ?_, hinv', ?_, ?_⟩
  · rw [render_cons, happ]
    simpa using hr
  · intro F hF
    by_cases hFF : F = F0
    · subst hFF
      have h0 := hc F hF
      rw [onF_subFlag_self] at h0
      have hone : onF rem F = true := by
        simp [onF, hg]
      rw [List.count_cons_self, hone]
      simp only [cnt] at h0 ⊢
      cases honf : onF s'.1 F with
      | false =>
        rw [honf] at h0
        simp at h0 ⊢
        omega
      | true =>
        rw [honf] at h0
        simp at h0
    · rw [List.count_cons_of_ne hFF]
      have h2 := hc F hF
      rw [onF_subFlag_ne rem F0 F hFF] at h2
      exact h2
  · rw [List.count_cons_of_ne (Ne.symm hF0)]
    exact hm

theorem fold_render (l : Log) (level : logLevel) (msg : List Char) (t : DateTime)
    (file : List Char) (line : Nat) :
    ∀ (ord : List logOrder) (rem : Nat) (w : Bool) (buf : List Char)
      (s' : Nat × Bool × List Char),
      maskInv l.flag rem →
      List.foldlM (outStep l level msg t file line) (rem, w, buf) ord = some s' →
      ∃ fs : List Field,
        renderFrom l level msg t file line buf fs = some s'.2.2 ∧
        maskInv l.flag s'.1 ∧
        (∀ F : Field, F ≠ Field.msg →
          fs.count F + cnt (onF s'.1 F) = cnt (onF rem F)) ∧
        fs.count Field.msg + cnt w = cnt s'.2.1 := by
  intro ord
  induction ord with
  | nil =>
    intro rem w buf s' hinv h
    simp only [List.foldlM_nil, pure] at h
    cases h
    exact ⟨[], rfl, hinv, fun F _ => by simp, by simp⟩
  | cons o rest ih =>
    intro rem w buf s' hinv h
    rw [List.foldlM_cons] at h
    simp only [Option.bind_eq_bind] at h
    obtain ⟨s1, hstep, hrest⟩ := Option.bind_eq_some.mp h
    by_cases ho1 : o = OrderDate
    · subst ho1
      rw [outStep_eval_date] at hstep
      cases hD : outputDate (rem, w, buf).1 t (rem, w, buf).2.2 with
      | none => rw [hD] at hstep; simp at hstep
      | some p =>
        rw [hD] at hstep
        simp only [Option.map_some', Option.some.injEq] at hstep
        obtain ⟨f2, b2⟩ := p
        subst hstep
        rcases outputDate_split rem t buf f2 b2 hD with ⟨hg, hf, hab⟩ | ⟨hg, hf, hb⟩
        · subst hf
          exact fold_render_emit l level msg t file line rest rem w buf s'
            .date (by decide) b2 hinv hg hab hrest ih
        · rw [hf, hb] at hrest
          exact ih rem w buf s' hinv hrest
    · by_cases ho2 : o = OrderTime
      · subst ho2
        rw [outStep_eval_time] at hstep
        cases hD : outputTime (rem, w, buf).1 t (rem, w, buf).2.2 with
        | none => rw [hD] at hstep; simp at hstep
        | some p =>
          rw [hD] at hstep
          simp only [Option.map_some', Option.some.injEq] at hstep
          obtain ⟨f2, b2⟩ := p
          subst hstep
          rcases outputTime_split rem t buf f2 b2 hD with ⟨hg, hf, hab⟩ | ⟨hg, hf, hb⟩
          · subst hf
            have hbits : rem &&& fmask Field.time = l.flag &&& fmask Field.time := by
              rcases hinv Field.time with hx | hx
              · exact hx
              · exact absurd hx hg
            have hmicro : rem &&& Lmicroseconds = l.flag &&& Lmicroseconds := by
              have e1 := land_mask_of rem (Ltime ||| Lmicroseconds) Lmicroseconds
                (by decide)
              have e2 := land_mask_of l.flag (Ltime ||| Lmicroseconds) Lmicroseconds
                (by decide)
              rw [← e1, ← e2]
              exact congrArg (· &&& Lmicroseconds) hbits
            have happ : appendField l level msg t file line Field.time buf = some b2 := by
              show appendTime l.flag t buf = some b2
              rw [← appendTime_congr rem l.flag t buf hmicro]
              exact hab
            exact fold_render_emit l level msg t file line rest rem w buf s'
              .time (by decide) b2 hinv hg happ hrest ih
          · rw [hf, hb] at hrest
            exact ih rem w buf s' hinv hrest
      · by_cases ho3 : o = OrderLevel
        · subst ho3
          rw [outStep_eval_level] at hstep
          cases hD : outputLevel (rem, w, buf).1 level (rem, w, buf).2.2 with
          | none => rw [hD] at hstep; simp at hstep
          | some p =>
            rw [hD] at hstep
            simp only [Option.map_some', Option.some.injEq] at hstep
            obtain ⟨f2, b2⟩ := p
            subst hstep
            rcases outputLevel_split rem level buf f2 b2 hD with ⟨hg, hf, hab⟩ | ⟨hg, hf, hb⟩
            · subst hf
              exact fold_render_emit l level msg t file line rest rem w buf s'
                .lvl (by decide) b2 hinv hg hab hrest ih
            · rw [hf, hb] at hrest
              exact ih rem w buf s' hinv hrest
        · by_cases ho4 : o = OrderPfx
          · subst ho4
            rw [outStep_eval_pfx] at hstep
            cases hD : outputPfx (rem, w, buf).1 l.pfx (rem, w, buf).2.2 with
            | none => rw [hD] at hstep; simp at hstep
            | some p =>
              rw [hD] at hstep
              simp only [Option.map_some', Option.some.injEq] at hstep
              obtain ⟨f2, b2⟩ := p
              subst hstep
              rcases outputPfx_split rem l.pfx buf f2 b2 hD with ⟨hg, hf, hab⟩ | ⟨hg, hf, hb⟩
              · subst hf
                exact fold_render_emit l level msg t file line rest rem w buf s'
                  .pfx (by decide) b2 hinv hg hab hrest ih
              · rw [hf, hb] at hrest
                exact ih rem w buf s' hinv hrest
          · by_cases ho5 : o = OrderPath
            · subst ho5
              rw [outStep_eval_path] at hstep
              cases hD : outputPath (rem, w, buf).1 file line (rem, w, buf).2.2 with
              | none => rw [hD] at hstep; simp at hstep
              | some p =>
                rw [hD] at hstep
                simp only [Option.map_some', Option.some.injEq] at hstep
                obtain ⟨f2, b2⟩ := p
                subst hstep
                rcases outputPath_split rem file line buf f2 b2 hD with
                  ⟨hg, hf, hab⟩ | ⟨hg, hf, hb⟩
                · subst hf
                  have hbits : rem &&& fmask Field.path = l.flag &&& fmask Field.path := by
                    rcases hinv Field.path with hx | hx
                    · exact hx
                    · exact absurd hx hg
                  have hshort : rem &&& Lshortfile = l.flag &&& Lshortfile := by
                    have e1 := land_mask_of rem (Lshortfile ||| Llongfile) Lshortfile
                      (by decide)
                    have e2 := land_mask_of l.flag (Lshortfile ||| Llongfile) Lshortfile
                      (by decide)
                    rw [← e1, ← e2]
                    exact congrArg (· &&& Lshortfile) hbits
                  have happ : appendField l level msg t file line Field.path buf
                      = some b2 := by
                    show appendPath l.flag file line buf = some b2
                    rw [← appendPath_congr rem l.flag file line buf hshort]
                    exact hab
                  exact fold_render_emit l level msg t file line rest rem w buf s'
                    .path (by decide) b2 hinv hg happ hrest ih
                · rw [hf, hb] at hrest
                  exact ih rem w buf s' hinv hrest
            · by_cases ho6 : o = OrderMsg
              · subst ho6
                rw [outStep_eval_msg] at hstep
                cases hw : w with
                | true =>
                  subst hw
                  rw [show outputMsg l.flag (rem, true, buf).2.1 level msg
                      (rem, true, buf).2.2 = (true, buf) from rfl] at hstep
                  cases hstep
                  exact ih rem true buf s' hinv hrest
                | false =>
                  subst hw
                  rw [show outputMsg l.flag (rem, false, buf).2.1 level msg
                      (rem, false, buf).2.2
                      = (true, appendMsg l.flag level msg buf) from rfl] at hstep
                  cases hstep
                  obtain ⟨fs', hr, hinv', hc, hm⟩ :=
                    ih rem true (appendMsg l.flag level msg buf) s' hinv hrest
                  refine ⟨Field.msg :: fs', ?_, hinv', ?_, ?_⟩
                  · rw [render_cons]
                    show (some (appendMsg l.flag level msg buf)) >>= _ = _
                    simpa using hr
                  · intro F hF
                    rw [List.count_cons_of_ne hF]
                    exact hc F hF
                  · rw [List.count_cons_self]
                    simp only [cnt] at hm ⊢
                    simp at hm ⊢
                    omega
              · rw [outStep_eval_other l level msg t file line (rem, w, buf) o
                    ho1 ho2 ho3 ho4 ho5 ho6] at hstep
                cases hstep
                exact ih rem w buf s' hinv hrest

theorem outputMsg_written (flag : Nat) (w : Bool) (level : logLevel)
    (msg buf : List Char) : (outputMsg flag w level msg buf).1 = true := by
  rw [outputMsg]
  cases w <;> simp

theorem fold_dflt_eq (l : Log) (level : logLevel) (msg : List Char) (t : DateTime)
    (file : List Char) (line : Nat) (s : Nat × Bool × List Char) :
    List.foldlM (outStep l level msg t file line) s dfltOrder
      = (outputDate s.1 t s.2.2).bind (fun p2 =>
          (outputTime p2.1 t p2.2).bind (fun p3 =>
            (outputLevel p3.1 level p3.2).bind (fun p4 =>
              (outputPath p4.1 file line p4.2).bind (fun p5 =>
                (outputPfx p5.1 l.pfx p5.2).map (fun p6 =>
                  (p6.1, (outputMsg l.flag s.2.1 level msg p6.2).1,
                   (outputMsg l.flag s.2.1 level msg p6.2).2)))))) := by
  rw [dfltOrder, List.foldlM_cons, outStep_eval_date]
  cases outputDate s.1 t s.2.2 with
  | none => simp
  | some p2 =>
    simp only [Option.map_some', Option.bind_eq_bind, Option.some_bind]
    rw [List.foldlM_cons, outStep_eval_time]
    cases outputTime p2.1 t p2.2 with
    | none => simp
    | some p3 =>
      simp only [Option.map_some', Option.bind_eq_bind, Option.some_bind]
      rw [List.foldlM_cons, outStep_eval_level]
      cases outputLevel p3.1 level p3.2 with
      | none => simp
      | some p4 =>
        simp only [Option.map_some', Option.bind_eq_bind, Option.some_bind]
        rw [List.foldlM_cons, outStep_eval_path]
        cases outputPath p4.1 file line p4.2 with
        | none => simp
        | some p5 =>
          simp only [Option.map_some', Option.bind_eq_bind, Option.some_bind]
          rw [List.foldlM_cons, outStep_eval_pfx]
          cases outputPfx p5.1 l.pfx p5.2 with
          | none => simp
          | some p6 =>
            simp only [Option.map_some', Option.bind_eq_bind, Option.some_bind]
            rw [List.foldlM_cons, outStep_eval_msg]
            simp

theorem out_eq_fold (st : Store) (l : Log) (level : logLevel) (msgS : String)
    (now : DateTime) (utc : DateTime → DateTime) (fileS : String) (line : Nat) :
    Out st l level msgS now utc fileS line
      = (List.foldlM (outStep l level msgS.toList
            (if l.flag &&& LUTC ≠ 0 then utc now else now) fileS.toList line)
          (l.flag, false, ([] : List Char)) (sliceView st l.order ++ dfltOrder)).map
          (fun s => setNewLine s.2.2) := by
  rw [Out, List.foldlM_append]
  simp only [Option.bind_eq_bind]
  cases hf : List.foldlM (outStep l level msgS.toList
      (if l.flag &&& LUTC ≠ 0 then utc now else now) fileS.toList line)
      (l.flag, false, ([] : List Char)) (sliceView st l.order) with
  | none => simp
  | some s1 =>
    simp only [Option.some_bind]
    rw [fold_dflt_eq]
    cases hD : outputDate s1.1 (if l.flag &&& LUTC ≠ 0 then utc now else now) s1.2.2 with
    | none => simp
    | some p2 =>
      obtain ⟨f2, b2⟩ := p2
      simp only [Option.bind_eq_bind, Option.some_bind]
      cases hT : outputTime f2 (if l.flag &&& LUTC ≠ 0 then utc now else now) b2 with
      | none => simp
      | some p3 =>
        obtain ⟨f3, b3⟩ := p3
        simp only [Option.some_bind]
        cases hL : outputLevel f3 level b3 with
        | none => simp
        | some p4 =>
          obtain ⟨f4, b4⟩ := p4
          simp only [Option.some_bind]
          cases hP : outputPath f4 fileS.toList line b4 with
          | none => simp
          | some p5 =>
            obtain ⟨f5, b5⟩ := p5
            simp only [Option.some_bind]
            cases hX : outputPfx f5 l.pfx b5 with
            | none => simp
            | some p6 =>
              obtain ⟨f6, b6⟩ := p6
              simp

theorem guarded_post (flag m : Nat) (A : List Char → Option (List Char))
    (buf : List Char) (f' : Nat) (b' : List Char)
    (h : (if flag &&& m ≠ 0 then (A buf).map (fun b => (subFlag flag m, b))
          else some (flag, buf)) = some (f', b')) :
    f' &&& m = 0 ∧ ∀ k, flag &&& k = 0 → f' &&& k = 0 := by
  rcases guarded_split flag m A buf f' b' h with ⟨hg, hf, _⟩ | ⟨hg, hf, _⟩
  · subst hf
    exact ⟨subFlag_land_self flag m, fun k hk => subFlag_land_zero flag k m hk⟩
  · subst hf
    exact ⟨hg, fun k hk => hk⟩

theorem fold_dflt_post (l : Log) (level : logLevel) (msg : List Char)
    (t : DateTime) (file : List Char) (line : Nat) (s s' : Nat × Bool × List Char)
    (h : List.foldlM (outStep l level msg t file line) s dfltOrder = some s') :
    s'.1 &&& Ldate = 0 ∧ s'.1 &&& (Ltime ||| Lmicroseconds) = 0 ∧
    s'.1 &&& Llevel = 0 ∧ s'.1 &&& (Lshortfile ||| Llongfile) = 0 ∧
    s'.1 &&& Lmsgpfx = 0 ∧ s'.2.1 = true := by
  rw [fold_dflt_eq] at h
  obtain ⟨p2, h2, h⟩ := Option.bind_eq_some.mp h
  obtain ⟨p3, h3, h⟩ := Option.bind_eq_some.mp h
  obtain ⟨p4, h4, h⟩ := Option.bind_eq_some.mp h
  obtain ⟨p5, h5, h⟩ := Option.bind_eq_some.mp h
  obtain ⟨p6, h6, h⟩ := Option.map_eq_some'.mp h
  have q2 := guarded_post s.1 Ldate (appendDate t) s.2.2 p2.1 p2.2 h2
  have q3 := guarded_post p2.1 (Ltime ||| Lmicroseconds) (appendTime p2.1 t) p2.2
    p3.1 p3.2 h3
  have q4 := guarded_post p3.1 Llevel (appendLevel level) p3.2 p4.1 p4.2 h4
  have q5 := guarded_post p4.1 (Lshortfile ||| Llongfile) (appendPath p4.1 file line)
    p4.2 p5.1 p5.2 h5
  have q6 := guarded_post p5.1 Lmsgpfx (appendPfx l.pfx) p5.2 p6.1 p6.2 h6
  subst h
  refine ⟨?_, ?_, ?_, ?_, q6.1, outputMsg_written _ _ _ _ _⟩
  · exact q6.2 _ (q5.2 _ (q4.2 _ (q3.2 _ q2.1)))
  · exact q6.2 _ (q5.2 _ (q4.2 _ q3.1))
  · exact q6.2 _ (q5.2 _ q4.1)
  · exact q6.2 _ q5.1

theorem cnt_onF (flag : Nat) (F : Field) :
    cnt (onF flag F) = if flag &&& fmask F ≠ 0 then 1 else 0 := by
  by_cases h : flag &&& fmask F = 0
  · simp [onF, cnt, h]
  · simp [onF, cnt, h]

theorem render_append (l : Log) (level : logLevel) (msg : List Char) (t : DateTime)
    (file : List Char) (line : Nat) (buf : List Char) (fs1 fs2 : List Field) :
    renderFrom l level msg t file line buf (fs1 ++ fs2)
      = (renderFrom l level msg t file line buf fs1).bind
          (fun b => renderFrom l level msg t file line b fs2) := by
  simp [renderFrom, List.foldlM_append]

/-- C1: every formatting pass of `Out` that completes writes the rendering of
a field sequence in which each flag-enabled field occurs exactly once, no
disabled field occurs at all, and the message occurs exactly once - whether
fields come from the explicit order list, the default fallback sequence, or
both. -/
theorem out_emits_each_enabled_field_exactly_once
    (st : Store) (l : Log) (level : logLevel) (msgS : String) (now : DateTime)
    (utc : DateTime → DateTime) (fileS : String) (line : Nat) (out : List Char)
    (h : Out st l level msgS now utc fileS line = some out) :
    ∃ fs : List Field,
      fs.count Field.date = (if l.flag &&& Ldate ≠ 0 then 1 else 0) ∧
      fs.count Field.time = (if l.flag &&& (Ltime ||| Lmicroseconds) ≠ 0 then 1 else 0) ∧
      fs.count Field.lvl = (if l.flag &&& Llevel ≠ 0 then 1 else 0) ∧
      fs.count Field.path = (if l.flag &&& (Lshortfile ||| Llongfile) ≠ 0 then 1 else 0) ∧
      fs.count Field.pfx = (if l.flag &&& Lmsgpfx ≠ 0 then 1 else 0) ∧
      fs.count Field.msg = 1 ∧
      ∃ b, renderFrom l level msgS.toList
          (if l.flag &&& LUTC ≠ 0 then utc now else now) fileS.toList line [] fs
          = some b ∧ out = setNewLine b := by
  rw [out_eq_fold] at h
  obtain ⟨s', hfold, hout⟩ := Option.map_eq_some'.mp h
  rw [List.foldlM_append] at hfold
  simp only [Option.bind_eq_bind] at hfold
  obtain ⟨s1, h1, h2⟩ := Option.bind_eq_some.mp hfold
  obtain ⟨fs1, hr1, hinv1, hc1, hm1⟩ :=
    fold_render l level msgS.toList
      (if l.flag &&& LUTC ≠ 0 then utc now else now) fileS.toList line
      (sliceView st l.order) l.flag false [] s1 (maskInv_refl l.flag) h1
  obtain ⟨fs2, hr2, _hinv2, hc2, hm2⟩ :=
    fold_render l level msgS.toList
      (if l.flag &&& LUTC ≠ 0 then utc now else now) fileS.toList line
      dfltOrder s1.1 s1.2.1 s1.2.2 s' hinv1 h2
  have hpost := fold_dflt_post l level msgS.toList
    (if l.flag &&& LUTC ≠ 0 then utc now else now) fileS.toList line s1 s' h2
  have hcount : ∀ F : Field, F ≠ Field.msg → s'.1 &&& fmask F = 0 →
      (fs1 ++ fs2).count F = cnt (onF l.flag F) := by
    intro F hF hz
    rw [List.count_append]
    have a1 := hc1 F hF
    have a2 := hc2 F hF
    have hz2 : onF s'.1 F = false := by simp [onF, hz]
    rw [hz2] at a2
    have c0 : cnt false = 0 := rfl
    rw [c0] at a2
    omega
  refine ⟨fs1 ++ fs2, ?_, ?_, ?_, ?_, ?_, ?_, s'.2.2, ?_, hout.symm⟩
  · rw [hcount Field.date (by decide) hpost.1, cnt_onF]
    rfl
  · rw [hcount Field.time (by decide) hpost.2.1, cnt_onF]
    rfl
  · rw [hcount Field.lvl (by decide) hpost.2.2.1, cnt_onF]
    rfl
  · rw [hcount Field.path (by decide) hpost.2.2.2.1, cnt_onF]
    rfl
  · rw [hcount Field.pfx (by decide) hpost.2.2.2.2.1, cnt_onF]
    rfl
  · rw [List.count_append]
    have hw := hpost.2.2.2.2.2
    rw [hw] at hm2
    have c0 : cnt false = 0 := rfl
    have c1 : cnt true = 1 := rfl
    cases hb : s1.2.1
    · rw [hb] at hm1 hm2
      simp only [c0, c1] at hm1 hm2
      omega
    · rw [hb] at hm1 hm2
      simp only [c0, c1] at hm1 hm2
      omega
  · rw [render_append, hr1]
    simpa using hr2

theorem out_emits_each_enabled_field_exactly_once_witness :
    (Out ⟨[]⟩
        { output := none, level := .InfoLevel, name := "", flag := LstdFlags,
          pfx := "", order := ⟨none, 0⟩ } .InfoLevel "hi" ⟨2024, 1, 2, 3, 4, 5, 6000⟩
        (fun t => t) "a/b.go" 3
      = some ("2024/01/02 03:04:05 INFO b.go:3 hi\n".toList)) ∧
    (∃ fs : List Field,
      fs.count Field.date = (if LstdFlags &&& Ldate ≠ 0 then 1 else 0) ∧
      fs.count Field.time = (if LstdFlags &&& (Ltime ||| Lmicroseconds) ≠ 0 then 1 else 0) ∧
      fs.count Field.lvl = (if LstdFlags &&& Llevel ≠ 0 then 1 else 0) ∧
      fs.count Field.path = (if LstdFlags &&& (Lshortfile ||| Llongfile) ≠ 0 then 1 else 0) ∧
      fs.count Field.pfx = (if LstdFlags &&& Lmsgpfx ≠ 0 then 1 else 0) ∧
      fs.count Field.msg = 1 ∧
      ∃ b, renderFrom
          { output := none, level := .InfoLevel, name := "", flag := LstdFlags,
            pfx := "", order := ⟨none, 0⟩ } .InfoLevel ("hi".toList)
          (if LstdFlags &&& LUTC ≠ 0 then (fun t => t) (⟨2024, 1, 2, 3, 4, 5, 6000⟩ : DateTime)
           else ⟨2024, 1, 2, 3, 4, 5, 6000⟩) ("a/b.go".toList) 3 [] fs
          = some b ∧ ("2024/01/02 03:04:05 INFO b.go:3 hi\n".toList) = setNewLine b) :=
  ⟨by decide,
   out_emits_each_enabled_field_exactly_once ⟨[]⟩
     { output := none, level := .InfoLevel, name := "", flag := LstdFlags,
       pfx := "", order := ⟨none, 0⟩ } .InfoLevel "hi" ⟨2024, 1, 2, 3, 4, 5, 6000⟩
     (fun t => t) "a/b.go" 3 ("2024/01/02 03:04:05 INFO b.go:3 hi\n".toList)
     (by decide)⟩

/-! ## C3 machinery: newline accounting -/

theorem count_nl_append_of (b ext : List Char) (h : '\n' ∉ ext) :
    (b ++ ext).count '\n' = b.count '\n' := by
  rw [List.count_append, List.count_eq_zero.mpr h, Nat.add_zero]

theorem count_zero_getLast_ne (b : List Char) (h : b.count '\n' = 0) :
    b.getLast? ≠ some '\n' := by
  intro hl
  exact absurd (List.mem_of_getLast?_eq_some hl) (List.count_eq_zero.mp h)

theorem itoa_some_parts (buf : List Char) (num : Nat) (wid : Int) (b' : List Char)
    (h : itoa buf num wid = some b') :
    ∃ ds, b' = buf ++ ds ∧ '\n' ∉ ds ∧ ds ≠ [] := by
  rw [itoa] at h
  cases hc : itoaCore num wid 20 with
  | none => rw [hc] at h; simp at h
  | some ds =>
    rw [hc] at h
    simp only [Option.map_some', Option.some.injEq] at h
    obtain ⟨hne, hdig⟩ := itoaCore_digits 20 num wid ds hc
    refine ⟨ds, h.symm, ?_, hne⟩
    intro hmem
    obtain ⟨d, hd10, hcd⟩ := hdig _ hmem
    exact absurd hcd.symm (digit_char_ne d hd10).1

theorem levelLabel_no_nl (lv : logLevel) : '\n' ∉ (levelMap lv).levelLabel.toList := by
  cases lv <;> decide

theorem levelColor_no_nl (lv : logLevel) : '\n' ∉ (levelMap lv).levelColor.toList := by
  cases lv <;> decide

theorem colorReset_no_nl : '\n' ∉ colorReset.toList := by decide

theorem colorReset_last : colorReset.toList.getLast? = some ' ' := by decide

theorem shortScan_drop_or_self (file : List Char) :
    ∀ k, shortScan file k = file ∨ ∃ m, shortScan file k = file.drop m := by
  intro k
  induction k with
  | zero => left; rfl
  | succ k ih =>
    rw [shortScan]
    by_cases hc : file.getD (k + 1) ' ' = '/'
    · rw [if_pos hc]
      right
      exact ⟨k + 2, rfl⟩
    · rw [if_neg hc]
      exact ih

theorem shortName_no_nl (file : List Char) (h : '\n' ∉ file) :
    '\n' ∉ shortName file := by
  cases hl : file.length with
  | zero =>
    have he : shortName file = file := by rw [shortName, hl]
    rw [he]
    exact h
  | succ n =>
    have he0 : shortName file = shortScan file n := by rw [shortName, hl]
    rw [he0]
    rcases shortScan_drop_or_self file n with he | ⟨m, he⟩
    · rw [he]
      exact h
    · rw [he]
      intro hmem
      exact h (List.mem_of_mem_drop hmem)

theorem appendDate_nl (t : DateTime) (buf b' : List Char)
    (h : appendDate t buf = some b') :
    b'.count '\n' = buf.count '\n' ∧ b'.getLast? = some ' ' := by
  rw [appendDate] at h
  simp only [Option.bind_eq_bind] at h
  obtain ⟨b1, h1, h⟩ := Option.bind_eq_some.mp h
  obtain ⟨b2, h2, h⟩ := Option.bind_eq_some.mp h
  obtain ⟨b3, h3, h⟩ := Option.bind_eq_some.mp h
  obtain ⟨ds1, he1, hn1, -⟩ := itoa_some_parts _ _ _ _ h1
  obtain ⟨ds2, he2, hn2, -⟩ := itoa_some_parts _ _ _ _ h2
  obtain ⟨ds3, he3, hn3, -⟩ := itoa_some_parts _ _ _ _ h3
  obtain ⟨hcnt, hlast⟩ := addSpace_post _ _ h
  refine ⟨?_, hlast⟩
  rw [hcnt, he3, he2, he1]
  rw [count_nl_append_of _ _ hn3]
  rw [count_nl_append_of _ _ (by decide : '\n' ∉ ['/'])]
  rw [count_nl_append_of _ _ hn2]
  rw [count_nl_append_of _ _ (by decide : '\n' ∉ ['/'])]
  rw [count_nl_append_of _ _ hn1]

theorem appendTime_nl (flag : Nat) (t : DateTime) (buf b' : List Char)
    (h : appendTime flag t buf = some b') :
    b'.count '\n' = buf.count '\n' ∧ b'.getLast? = some ' ' := by
  rw [appendTime] at h
  simp only [Option.bind_eq_bind] at h
  obtain ⟨b1, h1, h⟩ := Option.bind_eq_some.mp h
  obtain ⟨b2, h2, h⟩ := Option.bind_eq_some.mp h
  obtain ⟨b3, h3, h⟩ := Option.bind_eq_some.mp h
  obtain ⟨ds1, he1, hn1, -⟩ := itoa_some_parts _ _ _ _ h1
  obtain ⟨ds2, he2, hn2, -⟩ := itoa_some_parts _ _ _ _ h2
  obtain ⟨ds3, he3, hn3, -⟩ := itoa_some_parts _ _ _ _ h3
  have hrest : ∀ b4, addSpace b4 = some b' → b4.count '\n' = b3.count '\n' →
      b'.count '\n' = buf.count '\n' ∧ b'.getLast? = some ' ' := by
    intro b4 hs hc4
    obtain ⟨hcnt, hlast⟩ := addSpace_post _ _ hs
    refine ⟨?_, hlast⟩
    rw [hcnt, hc4, he3, he2, he1]
    rw [count_nl_append_of _ _ hn3]
    rw [count_nl_append_of _ _ (by decide : '\n' ∉ [':'])]
    rw [count_nl_append_of _ _ hn2]
    rw [count_nl_append_of _ _ (by decide : '\n' ∉ [':'])]
    rw [count_nl_append_of _ _ hn1]
  by_cases hmic : flag &&& Lmicroseconds ≠ 0
  · rw [if_pos hmic] at h
    obtain ⟨b4, h4, h⟩ := Option.bind_eq_some.mp h
    obtain ⟨ds4, he4, hn4, -⟩ := itoa_some_parts _ _ _ _ h4
    refine hrest b4 h ?_
    rw [he4]
    rw [count_nl_append_of _ _ hn4]
    rw [count_nl_append_of _ _ (by decide : '\n' ∉ ['.'])]
  · rw [if_neg hmic] at h
    simp only [Option.pure_def, Option.some_bind] at h
    exact hrest b3 h rfl

theorem appendLevel_nl (level : logLevel) (buf b' : List Char)
    (h : appendLevel level buf = some b') :
    b'.count '\n' = buf.count '\n' ∧ b'.getLast? = some ' ' := by
  rw [appendLevel] at h
  obtain ⟨hcnt, hlast⟩ := addSpace_post _ _ h
  exact ⟨by rw [hcnt, count_nl_append_of _ _ (levelLabel_no_nl level)], hlast⟩

theorem appendPath_nl (flag : Nat) (file : List Char) (line : Nat) (buf b' : List Char)
    (hfile : '\n' ∉ file) (h : appendPath flag file line buf = some b') :
    b'.count '\n' = buf.count '\n' ∧ b'.getLast? = some ' ' := by
  rw [appendPath] at h
  simp only [Option.bind_eq_bind] at h
  obtain ⟨b1, h1, h⟩ := Option.bind_eq_some.mp h
  obtain ⟨ds1, he1, hn1, -⟩ := itoa_some_parts _ _ _ _ h1
  obtain ⟨hcnt, hlast⟩ := addSpace_post _ _ h
  refine ⟨?_, hlast⟩
  have hshort : '\n' ∉ (if flag &&& Lshortfile ≠ 0 then shortName file else file) := by
    by_cases hs : flag &&& Lshortfile ≠ 0
    · rw [if_pos hs]; exact shortName_no_nl file hfile
    · rw [if_neg hs]; exact hfile
  rw [hcnt, he1]
  rw [count_nl_append_of _ _ hn1]
  rw [count_nl_append_of _ _ (by decide : '\n' ∉ [':'])]
  rw [count_nl_append_of _ _ hshort]

theorem appendPfx_nl (p : String) (buf b' : List Char) (hp : '\n' ∉ p.toList)
    (h : appendPfx p buf = some b') :
    b'.count '\n' = buf.count '\n' ∧ b'.getLast? = some ' ' := by
  rw [appendPfx] at h
  obtain ⟨hcnt, hlast⟩ := addSpace_post _ _ h
  exact ⟨by rw [hcnt, count_nl_append_of _ _ hp], hlast⟩

theorem appendField_header_props (l : Log) (level : logLevel) (msg : List Char)
    (t : DateTime) (file : List Char) (line : Nat) (F : Field) (buf b' : List Char)
    (hF : F ≠ Field.msg) (hp : '\n' ∉ l.pfx.toList) (hfile : '\n' ∉ file)
    (h : appendField l level msg t file line F buf = some b') :
    b'.count '\n' = buf.count '\n' ∧ b'.getLast? = some ' ' := by
  cases F with
  | date => exact appendDate_nl t buf b' h
  | time => exact appendTime_nl l.flag t buf b' h
  | lvl => exact appendLevel_nl level buf b' h
  | path => exact appendPath_nl l.flag file line buf b' hfile h
  | pfx => exact appendPfx_nl l.pfx buf b' hp h
  | msg => exact absurd rfl hF

theorem msg_guard (msg : List Char) (hm : '\n' ∉ msg) :
    msg.length = 0 ∨ msg.getLast? ≠ some '\n' := by
  by_cases hn : msg = []
  · left
    rw [hn]
    rfl
  · right
    intro hl
    exact hm (List.mem_of_getLast?_eq_some hl)

theorem eq_dropLast_concat (b : List Char) (c : Char) (h : b.getLast? = some c) :
    b = b.dropLast ++ [c] := by
  have hne : b ≠ [] := by
    intro he
    rw [he] at h
    simp at h
  have h2 := List.getLast?_eq_getLast b hne
  rw [h2, Option.some.injEq] at h
  rw [← h]
  exact (List.dropLast_concat_getLast hne).symm

theorem appendMsg_props (flag : Nat) (level : logLevel) (msg buf : List Char)
    (hm : '\n' ∉ msg) (hbuf : buf.count '\n' = 0) :
    (appendMsg flag level msg buf).count '\n' = 1 ∧
    (flag &&& Lmsgcolor ≠ 0 → (appendMsg flag level msg buf).getLast? = some ' ') ∧
    (flag &&& Lmsgcolor = 0 → (appendMsg flag level msg buf).getLast? = some '\n' ∧
      (appendMsg flag level msg buf).dropLast.count '\n' = 0) := by
  have hng := msg_guard msg hm
  by_cases hc : flag &&& Lmsgcolor ≠ 0
  · have he : appendMsg flag level msg buf
        = ((setColor buf level ++ msg) ++ ['\n']) ++ colorReset.toList := by
      rw [appendMsg, if_pos hc, if_pos hng, if_pos hc]
      rfl
    rw [he]
    refine ⟨?_, fun _ => ?_, fun hz => absurd hz hc⟩
    · rw [count_nl_append_of _ _ colorReset_no_nl]
      rw [List.count_append]
      have hsc : (setColor buf level ++ msg).count '\n' = 0 := by
        rw [setColor, count_nl_append_of _ _ hm,
            count_nl_append_of _ _ (levelColor_no_nl level), hbuf]
      rw [hsc]
      rfl
    · rw [List.getLast?_append, colorReset_last]
      rfl
  · push_neg at hc
    have he : appendMsg flag level msg buf = (buf ++ msg) ++ ['\n'] := by
      rw [appendMsg, if_neg (by rw [hc]; decide), if_pos hng,
          if_neg (by rw [hc]; decide)]
    rw [he]
    refine ⟨?_, fun hx => absurd hc hx, fun _ => ⟨?_, ?_⟩⟩
    · rw [List.count_append, count_nl_append_of _ _ hm, hbuf]
      rfl
    · exact List.getLast?_concat _
    · rw [List.dropLast_concat]
      rw [count_nl_append_of _ _ hm, hbuf]

theorem render_headers_props (l : Log) (level : logLevel) (msg : List Char)
    (t : DateTime) (file : List Char) (line : Nat)
    (hp : '\n' ∉ l.pfx.toList) (hfile : '\n' ∉ file) :
    ∀ (fs : List Field) (buf b' : List Char), Field.msg ∉ fs →
      renderFrom l level msg t file line buf fs = some b' →
      b'.count '\n' = buf.count '\n' ∧ (b' = buf ∨ b'.getLast? = some ' ') := by
  intro fs
  induction fs with
  | nil =>
    intro buf b' _ h
    rw [renderFrom, List.foldlM_nil] at h
    cases h
    exact ⟨rfl, Or.inl rfl⟩
  | cons F fs ih =>
    intro buf b' hmem h
    have hF : F ≠ Field.msg := fun he => hmem (he ▸ List.mem_cons_self F fs)
    rw [render_cons] at h
    obtain ⟨b1, h1, h2⟩ := Option.bind_eq_some.mp h
    obtain ⟨hc1, hl1⟩ := appendField_header_props l level msg t file line F buf b1
      hF hp hfile h1
    obtain ⟨hc2, hl2⟩ := ih b1 b' (fun hx => hmem (List.mem_cons_of_mem F hx)) h2
    refine ⟨by rw [hc2, hc1], ?_⟩
    rcases hl2 with he | he
    · right
      rw [he]
      exact hl1
    · right
      exact he

theorem count_one_split (fs : List Field) (h : fs.count Field.msg = 1) :
    ∃ g1 g2, fs = g1 ++ Field.msg :: g2 ∧ Field.msg ∉ g1 ∧ Field.msg ∉ g2 := by
  have hmem : Field.msg ∈ fs := List.count_pos_iff.mp (by omega)
  obtain ⟨g1, g2, he⟩ := List.append_of_mem hmem
  subst he
  rw [List.count_append, List.count_cons_self] at h
  refine ⟨g1, g2, rfl, ?_, ?_⟩
  · exact List.count_eq_zero.mp (by omega)
  · exact List.count_eq_zero.mp (by omega)

theorem guarded_count_nl (flag m : Nat) (A : List Char → Option (List Char))
    (buf : List Char) (f' : Nat) (b' : List Char)
    (h : (if flag &&& m ≠ 0 then (A buf).map (fun b => (subFlag flag m, b))
          else some (flag, buf)) = some (f', b'))
    (hA : ∀ bb', A buf = some bb' → bb'.count '\n' = buf.count '\n') :
    b'.count '\n' = buf.count '\n' := by
  rcases guarded_split flag m A buf f' b' h with ⟨_, _, hab⟩ | ⟨_, _, hb⟩
  · exact hA b' hab
  · rw [hb]

/-- C3 (amended): a completed pass always writes a line ending in exactly one
trailing newline (given newline-free message, prefix and file); with the
default (empty) order the written line contains exactly one newline when
`Lmsgcolor` is off, but two when `Lmsgcolor` is on (the color-reset escape is
appended after the message's newline and `setNewLine` then appends another). -/
theorem out_newline_discipline
    (st : Store) (l : Log) (level : logLevel) (msgS : String) (now : DateTime)
    (utc : DateTime → DateTime) (fileS : String) (line : Nat) (out : List Char)
    (h : Out st l level msgS now utc fileS line = some out)
    (hm : '\n' ∉ msgS.toList) (hp : '\n' ∉ l.pfx.toList)
    (hf : '\n' ∉ fileS.toList) :
    (∃ pre, out = pre ++ ['\n'] ∧ pre.getLast? ≠ some '\n') ∧
    (sliceView st l.order = [] →
      out.count '\n' = if l.flag &&& Lmsgcolor ≠ 0 then 2 else 1) := by
  rw [out_eq_fold] at h
  obtain ⟨s', hfold, hout⟩ := Option.map_eq_some'.mp h
  rw [List.foldlM_append] at hfold
  simp only [Option.bind_eq_bind] at hfold
  obtain ⟨s1, h1, h2⟩ := Option.bind_eq_some.mp hfold
  have hpost := fold_dflt_post l level msgS.toList
    (if l.flag &&& LUTC ≠ 0 then utc now else now) fileS.toList line s1 s' h2
  constructor
  · obtain ⟨fs1, hr1, hinv1, hc1, hm1⟩ := fold_render l level msgS.toList
      (if l.flag &&& LUTC ≠ 0 then utc now else now) fileS.toList line
      (sliceView st l.order) l.flag false [] s1 (maskInv_refl l.flag) h1
    obtain ⟨fs2, hr2, _, hc2, hm2⟩ := fold_render l level msgS.toList
      (if l.flag &&& LUTC ≠ 0 then utc now else now) fileS.toList line
      dfltOrder s1.1 s1.2.1 s1.2.2 s' hinv1 h2
    have hmsgcount : (fs1 ++ fs2).count Field.msg = 1 := by
      rw [List.count_append]
      have hw := hpost.2.2.2.2.2
      rw [hw] at hm2
      have c0 : cnt false = 0 := rfl
      have c1 : cnt true = 1 := rfl
      cases hb : s1.2.1
      · rw [hb] at hm1 hm2
        simp only [c0, c1] at hm1 hm2
        omega
      · rw [hb] at hm1 hm2
        simp only [c0, c1] at hm1 hm2
        omega
    have hrender : renderFrom l level msgS.toList
        (if l.flag &&& LUTC ≠ 0 then utc now else now) fileS.toList line []
        (fs1 ++ fs2) = some s'.2.2 := by
      rw [render_append, hr1]
      simpa using hr2
    obtain ⟨g1, g2, hsplit, hg1, hg2⟩ := count_one_split _ hmsgcount
    rw [hsplit, render_append] at hrender
    obtain ⟨bA, hA, hrest⟩ := Option.bind_eq_some.mp hrender
    rw [render_cons] at hrest
    obtain ⟨bB, hB, hC⟩ := Option.bind_eq_some.mp hrest
    have hBB : bB = appendMsg l.flag level msgS.toList bA := by
      have he : appendField l level msgS.toList
          (if l.flag &&& LUTC ≠ 0 then utc now else now) fileS.toList line
          Field.msg bA = some (appendMsg l.flag level msgS.toList bA) := rfl
      rw [he] at hB
      exact (Option.some_inj.mp hB).symm
    subst hBB
    obtain ⟨hcA, hlA⟩ := render_headers_props l level msgS.toList
      (if l.flag &&& LUTC ≠ 0 then utc now else now) fileS.toList line hp hf
      g1 [] bA hg1 hA
    have hcA0 : bA.count '\n' = 0 := by
      rw [hcA]
      rfl
    obtain ⟨hcB, hcolB, hncolB⟩ := appendMsg_props l.flag level msgS.toList bA hm hcA0
    obtain ⟨hcC, hlC⟩ := render_headers_props l level msgS.toList
      (if l.flag &&& LUTC ≠ 0 then utc now else now) fileS.toList line hp hf
      g2 (appendMsg l.flag level msgS.toList bA) s'.2.2 hg2 hC
    rw [← hout]
    by_cases hcol : l.flag &&& Lmsgcolor ≠ 0
    · have hend : s'.2.2.getLast? = some ' ' := by
        rcases hlC with he | he
        · rw [he]
          exact hcolB hcol
        · exact he
      refine ⟨s'.2.2, ?_, ?_⟩
      · rw [setNewLine, if_neg (by rw [hend]; decide)]
      · rw [hend]
        decide
    · push_neg at hcol
      obtain ⟨hendB, hdropB⟩ := hncolB hcol
      rcases hlC with he | he
      · rw [he]
        refine ⟨(appendMsg l.flag level msgS.toList bA).dropLast, ?_,
          count_zero_getLast_ne _ hdropB⟩
        rw [setNewLine, if_pos hendB]
        exact eq_dropLast_concat _ '\n' hendB
      · refine ⟨s'.2.2, ?_, by rw [he]; decide⟩
        rw [setNewLine, if_neg (by rw [he]; decide)]
  · intro horder
    rw [horder, List.foldlM_nil] at h1
    have h1' : some (l.flag, false, ([] : List Char)) = some s1 := h1
    cases h1'
    rw [fold_dflt_eq] at h2
    obtain ⟨p2, e2, h2⟩ := Option.bind_eq_some.mp h2
    obtain ⟨p3, e3, h2⟩ := Option.bind_eq_some.mp h2
    obtain ⟨p4, e4, h2⟩ := Option.bind_eq_some.mp h2
    obtain ⟨p5, e5, h2⟩ := Option.bind_eq_some.mp h2
    obtain ⟨p6, e6, h2⟩ := Option.map_eq_some'.mp h2
    have c2 : p2.2.count '\n' = 0 := by
      have hx := guarded_count_nl l.flag Ldate
        (appendDate (if l.flag &&& LUTC ≠ 0 then utc now else now)) [] p2.1 p2.2 e2
        (fun bb' hh => (appendDate_nl _ _ _ hh).1)
      simpa using hx
    have c3 : p3.2.count '\n' = 0 := by
      have hx := guarded_count_nl p2.1 (Ltime ||| Lmicroseconds)
        (appendTime p2.1 (if l.flag &&& LUTC ≠ 0 then utc now else now)) p2.2
        p3.1 p3.2 e3 (fun bb' hh => (appendTime_nl _ _ _ _ hh).1)
      exact hx.trans c2
    have c4 : p4.2.count '\n' = 0 := by
      have hx := guarded_count_nl p3.1 Llevel (appendLevel level) p3.2 p4.1 p4.2 e4
        (fun bb' hh => (appendLevel_nl _ _ _ hh).1)
      exact hx.trans c3
    have c5 : p5.2.count '\n' = 0 := by
      have hx := guarded_count_nl p4.1 (Lshortfile ||| Llongfile)
        (appendPath p4.1 fileS.toList line) p4.2 p5.1 p5.2 e5
        (fun bb' hh => (appendPath_nl _ _ _ _ _ hf hh).1)
      exact hx.trans c4
    have c6 : p6.2.count '\n' = 0 := by
      have hx := guarded_count_nl p5.1 Lmsgpfx (appendPfx l.pfx) p5.2 p6.1 p6.2 e6
        (fun bb' hh => (appendPfx_nl _ _ _ hp hh).1)
      exact hx.trans c5
    obtain ⟨hcB, hcolB, hncolB⟩ := appendMsg_props l.flag level msgS.toList p6.2 hm c6
    rw [← hout, ← h2]
    show (setNewLine (appendMsg l.flag level msgS.toList p6.2)).count '\n'
      = if l.flag &&& Lmsgcolor ≠ 0 then 2 else 1
    by_cases hcol : l.flag &&& Lmsgcolor ≠ 0
    · rw [if_pos hcol]
      have hend := hcolB hcol
      rw [setNewLine, if_neg (by rw [hend]; decide)]
      rw [List.count_append, hcB]
      rfl
    · push_neg at hcol
      rw [if_neg (by rw [hcol]; decide)]
      have hend := (hncolB hcol).1
      rw [setNewLine, if_pos hend]
      exact hcB

/-- C3 counterexample: with `Lmsgcolor` enabled, a single print of "x" writes
TWO newline characters (one appended inside the colored span, one appended by
`setNewLine` after the color reset), not exactly one line terminator. -/
theorem out_msgcolor_two_newlines_cex :
    (Out ⟨[]⟩
        { output := none, level := .InfoLevel, name := "", flag := Lmsgcolor,
          pfx := "", order := ⟨none, 0⟩ } .InfoLevel "x" ⟨2024, 1, 2, 3, 4, 5, 0⟩
        (fun t => t) "f.go" 1).map (fun b => b.count '\n') = some 2 := by
  decide

theorem out_newline_discipline_witness :
    ((Out ⟨[]⟩
        { output := none, level := .InfoLevel, name := "", flag := LstdFlags,
          pfx := "", order := ⟨none, 0⟩ } .InfoLevel "hi" ⟨2024, 1, 2, 3, 4, 5, 6000⟩
        (fun t => t) "a/b.go" 3
      = some ("2024/01/02 03:04:05 INFO b.go:3 hi\n".toList)) ∧
     '\n' ∉ "hi".toList ∧ '\n' ∉ ("" : String).toList ∧ '\n' ∉ "a/b.go".toList) ∧
    ((∃ pre, ("2024/01/02 03:04:05 INFO b.go:3 hi\n".toList) = pre ++ ['\n'] ∧
        pre.getLast? ≠ some '\n') ∧
     (sliceView ⟨[]⟩ (⟨none, 0⟩ : OrderSlice) = [] →
       ("2024/01/02 03:04:05 INFO b.go:3 hi\n".toList).count '\n'
         = if LstdFlags &&& Lmsgcolor ≠ 0 then 2 else 1)) :=
  ⟨⟨by decide, by decide, by decide, by decide⟩,
   out_newline_discipline ⟨[]⟩
     { output := none, level := .InfoLevel, name := "", flag := LstdFlags,
       pfx := "", order := ⟨none, 0⟩ } .InfoLevel "hi" ⟨2024, 1, 2, 3, 4, 5, 6000⟩
     (fun t => t) "a/b.go" 3 ("2024/01/02 03:04:05 INFO b.go:3 hi\n".toList)
     (by decide) (by decide) (by decide) (by decide)⟩

end Elog
